import Mathlib

/-!
# segmatch `database.cpp`: the identifier-matching store

A shallow embedding of `segmatch::IdMatches` (src/segmatch/src/database.cpp)
and a verification of its group structure: the store is a sequence of groups
of ids, `addMatch` performs a union with a prepend tie-break, `findId` is a
row-major linear scan.

The second part embeds the functions of `database.cpp` that write and read the
three text files of a session (segments, features, matches): files are given
by their content, the text of a matches file character by character, the
lines of the segments and features files by the values the extractions leave.
-/

namespace segmatch

/-- Segment identifier (`typedef int64_t Id`); ids are only compared, never
computed with, so they are embedded as integers. -/
abbrev Id := Int

/-- `struct Position { size_t row; size_t col; }`: where `findId` found an id. -/
structure Position where
  row : Nat
  col : Nat
  deriving DecidableEq, Repr

/-- The member `std::vector<std::vector<Id>> id_match_list_` of `IdMatches`:
a sequence of groups, each a sequence of ids. -/
abbrev IdMatches := List (List Id)

/-- The ways a call can abort the process: the `CHECK_NE(id1, id2)` at the top
of `addMatch`, the `CHECK(findId(id1, &position1))` after the erase in the merge
branch, and an out-of-range `.at()`. -/
inductive Fault where
  | checkNe
  | checkFindId
  | atOutOfRange
  deriving DecidableEq, Repr

/-- Result of a mutating call: it returns normally with the new store, or it
aborts with a fault, the store being as it was at the moment of the abort. -/
inductive Outcome where
  | done (store : IdMatches)
  | fault (f : Fault) (store : IdMatches)
  deriving DecidableEq, Repr

/-- Inner loop of `findId`: scan one group from column `j` on, return the
column of the first element equal to `id`. -/
def findCol (id : Id) : List Id → Nat → Option Nat
  | [], _ => none
  | x :: xs, j => if id = x then some j else findCol id xs (j + 1)

/-- Outer loop of `findId`: scan the groups from row `i` on. -/
def findIdFrom (id : Id) : List (List Id) → Nat → Option Position
  | [], _ => none
  | g :: rest, i =>
    match findCol id g 0 with
    | some j => some ⟨i, j⟩
    | none => findIdFrom id rest (i + 1)

/-- `IdMatches::findId`: position of the first occurrence of `id` in row-major
order, `none` for the `false` return. -/
def findId (s : IdMatches) (id : Id) : Option Position :=
  findIdFrom id s 0

/-- `IdMatches::areIdsMatching`. -/
def areIdsMatching (s : IdMatches) (id1 id2 : Id) : Bool :=
  match findId s id1, findId s id2 with
  | some position1, some position2 => decide (position1.row = position2.row)
  | _, _ => false

/-- `IdMatches::findMatches`: the returned flag and the content of `*matches`
on return (`*matches` is cleared first); `none` when `.at()` is out of range. -/
def findMatches (s : IdMatches) (id : Id) : Option (Bool × List Id) :=
  match findId s id with
  | some position =>
    match s[position.row]? with
    | some group => some (true, group.eraseIdx position.col)
    | none => none
  | none => some (false, [])

/-- `IdMatches::addMatch`. -/
def addMatch (s : IdMatches) (id1 id2 : Id) : Outcome :=
  if id1 = id2 then .fault .checkNe s
  else
    match findId s id1 with
    | some position1 =>
      match findId s id2 with
      | some position2 =>
        if position1.row ≠ position2.row then
          match s[position2.row]? with
          | none => .fault .atOutOfRange s
          | some matches2_copy =>
            let s1 := s.eraseIdx position2.row
            match findId s1 id1 with
            | none => .fault .checkFindId s1
            | some position1 =>
              match s1[position1.row]? with
              | none => .fault .atOutOfRange s1
              | some group1 => .done (s1.set position1.row (matches2_copy ++ group1))
        else .done s
      | none =>
        match s[position1.row]? with
        | none => .fault .atOutOfRange s
        | some group1 => .done (s.set position1.row (group1 ++ [id2]))
    | none =>
      match findId s id2 with
      | some position2 =>
        match s[position2.row]? with
        | none => .fault .atOutOfRange s
        | some group2 => .done (s.set position2.row (group2 ++ [id1]))
      | none => .done (s ++ [[id1, id2]])

/-- A finite sequence of `addMatch` calls, in order; the first fault stops it. -/
def addMatches : IdMatches → List (Id × Id) → Outcome
  | s, [] => .done s
  | s, p :: ps =>
    match addMatch s p.1 p.2 with
    | .done s1 => addMatches s1 ps
    | .fault f s1 => .fault f s1

/-- A store obtained from the empty store by `addMatch` calls with distinct
arguments. -/
def Reachable (s : IdMatches) : Prop :=
  ∃ ps : List (Id × Id), (∀ p ∈ ps, p.1 ≠ p.2) ∧ addMatches [] ps = .done s

/-- Partition invariant: every id occurs at most once in the whole store. -/
def Partition (s : IdMatches) : Prop := s.flatten.Nodup

instance (s : IdMatches) : Decidable (Partition s) :=
  inferInstanceAs (Decidable s.flatten.Nodup)

/-- The id occurs somewhere in the store. -/
def Occurs (s : IdMatches) (x : Id) : Prop := ∃ g ∈ s, x ∈ g

/-- Two ids are members of one group of the store. -/
def SameGroup (s : IdMatches) (x y : Id) : Prop := ∃ g ∈ s, x ∈ g ∧ y ∈ g

/-- The group `G`, preceded by the groups `A`, is the first group holding `id`:
the group `findId` reports. -/
def FirstIn (id : Id) (A : List (List Id)) (G : List Id) : Prop :=
  (∀ g ∈ A, id ∉ g) ∧ id ∈ G

/-- The six ways `addMatch id1 id2` transforms a store, one per path through
its body, written on the decomposition of the store around the groups that
`findId` reports. -/
inductive Step (id1 id2 : Id) : IdMatches → IdMatches → Prop
  | fresh (s : IdMatches) :
      ¬ Occurs s id1 → ¬ Occurs s id2 → Step id1 id2 s (s ++ [[id1, id2]])
  | left (A : List (List Id)) (G : List Id) (B : List (List Id)) :
      FirstIn id1 A G → ¬ Occurs (A ++ G :: B) id2 →
      Step id1 id2 (A ++ G :: B) (A ++ (G ++ [id2]) :: B)
  | right (A : List (List Id)) (G : List Id) (B : List (List Id)) :
      FirstIn id2 A G → ¬ Occurs (A ++ G :: B) id1 →
      Step id1 id2 (A ++ G :: B) (A ++ (G ++ [id1]) :: B)
  | same (A : List (List Id)) (G : List Id) (B : List (List Id)) :
      FirstIn id1 A G → FirstIn id2 A G →
      Step id1 id2 (A ++ G :: B) (A ++ G :: B)
  | mergeFwd (A : List (List Id)) (G1 : List Id) (M : List (List Id)) (G2 : List Id)
      (C : List (List Id)) :
      FirstIn id1 A G1 → FirstIn id2 (A ++ G1 :: M) G2 →
      Step id1 id2 (A ++ G1 :: (M ++ G2 :: C)) (A ++ (G2 ++ G1) :: (M ++ C))
  | mergeBwd (A : List (List Id)) (G2 : List Id) (M : List (List Id)) (G1 : List Id)
      (C : List (List Id)) :
      FirstIn id2 A G2 → FirstIn id1 (A ++ G2 :: M) G1 →
      Step id1 id2 (A ++ G2 :: (M ++ G1 :: C)) (A ++ (M ++ (G2 ++ G1) :: C))

/-- The ids tied to `z` before the call: `z` itself and the members of its group. -/
def Tied (s : IdMatches) (z x : Id) : Prop := x = z ∨ SameGroup s z x

/-- The id is an argument of one of the asserted pairs. -/
def Mentioned (ps : List (Id × Id)) (x : Id) : Prop := ∃ p ∈ ps, x = p.1 ∨ x = p.2

/-- The pair was asserted by one of the calls. -/
def Asserted (ps : List (Id × Id)) (x y : Id) : Prop := (x, y) ∈ ps

/-- What a store has to do with the pairs asserted so far: it is partitioned,
it holds the mentioned ids and no others, co-members are connected by asserted
pairs, and the two ids of every asserted pair are co-members. -/
def Tracks (s : IdMatches) (ps : List (Id × Id)) : Prop :=
  Partition s ∧ (∀ x, Occurs s x ↔ Mentioned ps x) ∧
    (∀ x y, SameGroup s x y → Relation.EqvGen (Asserted ps) x y) ∧
    (∀ p ∈ ps, SameGroup s p.1 p.2)

/-! ## Text: what `operator<<` writes and `getline`, `operator>>` read -/

/-- Content of a text file, a line of it, or a file name: a sequence of
characters. -/
abbrev Text := List Char

/-- Range of `Id` (`int64_t`). -/
def InInt64 (x : Int) : Prop := -9223372036854775808 ≤ x ∧ x < 9223372036854775808

instance (x : Int) : Decidable (InInt64 x) :=
  inferInstanceAs (Decidable (-9223372036854775808 ≤ x ∧ x < 9223372036854775808))

/-- The decimal digit for a number below ten. -/
def digitChar (d : Nat) : Char :=
  match d with
  | 0 => '0' | 1 => '1' | 2 => '2' | 3 => '3' | 4 => '4'
  | 5 => '5' | 6 => '6' | 7 => '7' | 8 => '8' | _ => '9'

/-- Decimal digits of `n`, most significant first, in front of `acc`; `fuel`
bounds the number of digits. -/
def showNatAux : Nat → Nat → Text → Text
  | 0, _, acc => acc
  | fuel + 1, n, acc =>
    if n / 10 = 0 then digitChar (n % 10) :: acc
    else showNatAux fuel (n / 10) (digitChar (n % 10) :: acc)

/-- Decimal numeral of a natural number. -/
def showNat (n : Nat) : Text := showNatAux (n + 1) n []

/-- What `stream << id` writes for an `Id`: the decimal numeral, with a minus
sign in front when negative. -/
def showId (x : Id) : Text :=
  if x < 0 then '-' :: showNat x.natAbs else showNat x.natAbs

/-- `std::isspace` in the C locale: space, tab, newline, vertical tab, form
feed, carriage return. -/
def isSpace (c : Char) : Bool :=
  c = ' ' || c = '\t' || c = '\n' || c = Char.ofNat 11 || c = Char.ofNat 12 || c = '\r'

/-- Leading whitespace skipped by a formatted extraction. -/
def skipSpace : Text → Text
  | [] => []
  | c :: cs => if isSpace c then skipSpace cs else c :: cs

/-- The digits at the front of the text, accumulated onto `v`, and the text
after them. -/
def readDigits : Text → Nat → Nat × Text
  | [], v => (v, [])
  | c :: cs, v =>
    if c.isDigit then readDigits cs (10 * v + (c.toNat - 48)) else (v, c :: cs)

/-- The extraction `stream >> id` for an `Id`: skip whitespace, take an optional
sign and the digits after it; `none` when the stream fails (no digit, or a value
outside the range of `int64_t`), else the value and the rest of the stream. -/
def readId (cs : Text) : Option (Id × Text) :=
  match skipSpace cs with
  | [] => none
  | c :: rest =>
    let body := if c = '-' ∨ c = '+' then rest else c :: rest
    match body with
    | [] => none
    | d :: _ =>
      if d.isDigit then
        let r := readDigits body 0
        let x : Int := if c = '-' then -(r.1 : Int) else (r.1 : Int)
        if InInt64 x then some (x, r.2) else none
      else none

/-- The loop `while (line_as_stream >> id) match_group.push_back(id)`; every
successful extraction consumes a character, so `fuel` = length of the text is
enough. -/
def readIdsAux : Nat → Text → List Id
  | 0, _ => []
  | fuel + 1, cs =>
    match readId cs with
    | none => []
    | some (id, rest) => id :: readIdsAux fuel rest

/-- The ids extracted from one line. -/
def readIds (line : Text) : List Id := readIdsAux line.length line

/-- The loop `while (getline(input_file, line))`: the lines of a text; `cur`
holds, last first, the characters of the line being extracted. A trailing
piece without newline is a line when it is not empty. -/
def getlinesAux : Text → Text → List Text
  | [], cur => if cur = [] then [] else [cur.reverse]
  | c :: cs, cur => if c = '\n' then cur.reverse :: getlinesAux cs [] else getlinesAux cs (c :: cur)

/-- The lines `getline` extracts from a text. -/
def getlines (text : Text) : List Text := getlinesAux text []

/-- The inner loop of `asString` and of `export_matches`: each id of the group
followed by one space. -/
def groupText : List Id → Text
  | [] => []
  | id :: rest => showId id ++ ' ' :: groupText rest

/-- The outer loop of `asString` and of `export_matches`: each group followed
by `std::endl`. -/
def matchesText : List (List Id) → Text
  | [] => []
  | g :: rest => groupText g ++ '\n' :: matchesText rest

/-- `IdMatches::asString`. -/
def asString (s : IdMatches) : Text := matchesText s

/-- The format in the words of the specification: one newline-terminated line
per group, the decimal ids of the group separated by single spaces. -/
def asStringSpec (s : IdMatches) : Text :=
  (s.map (fun g => List.intercalate [' '] (g.map showId) ++ ['\n'])).flatten

/-- The whitespace-separated tokens of a line; `cur` holds, last first, the
characters of the token being read. -/
def tokensAux : Text → Text → List Text
  | [], cur => if cur = [] then [] else [cur.reverse]
  | c :: cs, cur =>
    if isSpace c then (if cur = [] then tokensAux cs [] else cur.reverse :: tokensAux cs [])
    else tokensAux cs (c :: cur)

/-- The whitespace-separated tokens of a line. -/
def tokens (line : Text) : List Text := tokensAux line []

/-- `import_matches`: `file` is the content of the file when it could be
opened; the result is the returned flag and the store `*matches_ptr` on
return. The count written to the log is not part of the model. -/
def import_matches (file : Option Text) (matches_ : IdMatches) : Bool × IdMatches :=
  if matches_ ≠ [] then (false, matches_)
  else
    match file with
    | some text => (true, (getlines text).map readIds)
    | none => (false, matches_)

/-! ## Segments, features and the segment collection -/

/-- Modelled from the spec: a point of a segment, three integer coordinates
(the type `PointI` is declared outside `database.cpp`). -/
structure PointI where
  x : Int
  y : Int
  z : Int
  deriving DecidableEq, Repr

/-- Modelled from the spec: a feature, a (name, numeric value) pair. The codec
moves the values around and never computes with them; they are embedded as
rationals. -/
structure Feature where
  name : String
  value : Rat
  deriving DecidableEq, Repr

/-- Modelled from the spec: the sentinel id that denotes "no id". -/
def kNoId : Id := -1

/-- Modelled from the spec: a segment, its identifier, its points in order and
its features in order. -/
structure Segment where
  segment_id : Id
  point_cloud : List PointI
  features : List Feature
  deriving DecidableEq, Repr

namespace Segment

/-- Modelled from the spec: a default-constructed segment, also the state after
`clear()`: sentinel id, no points, no features. -/
def fresh : Segment := ⟨kNoId, [], []⟩

/-- Modelled from the spec: `Segment::empty()`, the segment has no points. -/
def empty (segment : Segment) : Bool := segment.point_cloud.isEmpty

/-- Modelled from the spec: `Segment::hasValidId()`, the id is not the sentinel. -/
def hasValidId (segment : Segment) : Bool := decide (segment.segment_id ≠ kNoId)

end Segment

/-- Modelled from the spec: the segment collection, its valid segments in
collection order. -/
abbrev SegmentedCloud := List Segment

/-- Scan of the collection from index `k` on for the first segment of the id. -/
def findSegmentFrom (id : Id) : List Segment → Nat → Option (Nat × Segment)
  | [], _ => none
  | segment :: rest, k =>
    if segment.segment_id = id then some (k, segment) else findSegmentFrom id rest (k + 1)

/-- Modelled from the spec: `findValidSegmentPtrById`, "find segment by id";
`none` for the `false` return, else the place of the segment in the collection
(the pointer) and the segment there. -/
def findValidSegmentPtrById (cloud : SegmentedCloud) (id : Id) : Option (Nat × Segment) :=
  findSegmentFrom id cloud 0

/-- Modelled from the spec: `addValidSegment`, "add a new valid segment", at
the end of the collection order. -/
def addValidSegment (cloud : SegmentedCloud) (segment : Segment) : SegmentedCloud :=
  cloud ++ [segment]

/-- One line of a segments file as `import_segments` sees it: the values the
extractions leave in `line_id` and `point`. -/
structure SegmentLine where
  line_id : Id
  point : PointI
  deriving DecidableEq, Repr

/-- The block of `import_segments` that stores an accumulated segment (it
occurs in the loop and after it): skip it when a segment of that id exists,
else add it and count it. -/
def storeSegment (cloud : SegmentedCloud) (count : Nat) (segment : Segment) :
    SegmentedCloud × Nat :=
  match findValidSegmentPtrById cloud segment.segment_id with
  | some _ => (cloud, count)
  | none => (addValidSegment cloud segment, count + 1)

/-- The two statements `segment.segment_id = line_id;
segment.point_cloud.push_back(point)`. -/
def pushLine (segment : Segment) (l : SegmentLine) : Segment :=
  { segment with segment_id := l.line_id, point_cloud := segment.point_cloud ++ [l.point] }

/-- The `while (getline ...)` loop of `import_segments`: the state is the
accumulated segment, the collection and `segments_count`. -/
def import_segments_loop :
    List SegmentLine → Segment → SegmentedCloud → Nat → Segment × SegmentedCloud × Nat
  | [], segment, cloud, count => (segment, cloud, count)
  | l :: rest, segment, cloud, count =>
    if l.line_id ≠ segment.segment_id ∧ segment.empty = false then
      import_segments_loop rest (pushLine Segment.fresh l)
        (storeSegment cloud count segment).1 (storeSegment cloud count segment).2
    else
      import_segments_loop rest (pushLine segment l) cloud count

/-- `import_segments`: `file` holds the lines of the file when it could be
opened; the result is the returned flag, the collection on return and the
count written to the log (0 when the file could not be opened). -/
def import_segments (file : Option (List SegmentLine)) (cloud : SegmentedCloud) :
    Bool × SegmentedCloud × Nat :=
  match file with
  | none => (false, cloud, 0)
  | some lines =>
    let r := import_segments_loop lines Segment.fresh cloud 0
    if r.1.hasValidId then
      (true, (storeSegment r.2.1 r.2.2 r.1).1, (storeSegment r.2.1 r.2.2 r.1).2)
    else (true, r.2.1, r.2.2)

/-- The maximal runs of equal ids of a sequence of lines, in the words of the
specification: each run with its id and its points in line order. -/
def runs : List SegmentLine → List (Id × List PointI)
  | [] => []
  | l :: rest =>
    match runs rest with
    | [] => [(l.line_id, [l.point])]
    | (j, ps) :: more =>
      if l.line_id = j then (j, l.point :: ps) :: more
      else (l.line_id, [l.point]) :: (j, ps) :: more

/-- Lines of the same id are contiguous: once the id changes, the old id does
not come back. -/
def contiguous : List Id → Bool
  | [] => true
  | x :: xs => (xs.dropWhile (fun y => y == x)).all (fun y => y != x) && contiguous xs

/-- The segment made of a run: its id, its points, no features. -/
def runSegment (r : Id × List PointI) : Segment := ⟨r.1, r.2, []⟩

/-- One line of a features file as `import_features` sees it: `none` when the
id cannot be extracted, else the id and the (name, value) pairs after it. -/
abbrev FeatureLine := Option (Id × List Feature)

/-- Result of `import_features`: it returns a flag, with the collection and the
count written to the log, or the process is terminated (`LOG(FATAL)`, or the
`CHECK` on the extraction of the id) with the collection as it was then. -/
inductive FeaturesOutcome where
  | returned (success : Bool) (cloud : SegmentedCloud) (count : Nat)
  | fatal (cloud : SegmentedCloud)
  deriving DecidableEq, Repr

/-- The `while (getline ...)` loop of `import_features`. -/
def import_features_loop (behavior_when_segment_has_features : String) :
    List FeatureLine → SegmentedCloud → Nat → FeaturesOutcome
  | [], cloud, count => .returned true cloud count
  | none :: _, cloud, _ => .fatal cloud
  | some (segment_id, features) :: rest, cloud, count =>
    match findValidSegmentPtrById cloud segment_id with
    | none => import_features_loop behavior_when_segment_has_features rest cloud count
    | some (k, segment) =>
      if segment.features ≠ [] then
        if behavior_when_segment_has_features = "concatenate" then
          import_features_loop behavior_when_segment_has_features rest
            (cloud.set k { segment with features := segment.features ++ features }) (count + 1)
        else if behavior_when_segment_has_features = "replace" then
          import_features_loop behavior_when_segment_has_features rest
            (cloud.set k { segment with features := features }) (count + 1)
        else .fatal cloud
      else
        import_features_loop behavior_when_segment_has_features rest
          (cloud.set k { segment with features := features }) (count + 1)

/-- `import_features`: `file` holds the lines of the file when it could be
opened. -/
def import_features (file : Option (List FeatureLine)) (cloud : SegmentedCloud)
    (behavior_when_segment_has_features : String) : FeaturesOutcome :=
  match file with
  | none => .returned false cloud 0
  | some lines => import_features_loop behavior_when_segment_has_features lines cloud 0

/-- Result of `import_session_data_from_database`: the returned flag with the
collection and the store on return, or the termination of the process. -/
inductive SessionOutcome where
  | returned (success : Bool) (cloud : SegmentedCloud) (matches_ : IdMatches)
  | fatal (cloud : SegmentedCloud) (matches_ : IdMatches)
  deriving DecidableEq, Repr

/-- `import_session_data_from_database`: the three imports joined by `&&`.
The three files are given by their content; `default_behavior` is the default
argument of `import_features`, declared in the header. -/
def import_session_data_from_database (default_behavior : String)
    (segments_file : Option (List SegmentLine)) (features_file : Option (List FeatureLine))
    (matches_file : Option Text) (cloud : SegmentedCloud) (matches_ : IdMatches) :
    SessionOutcome :=
  match import_segments segments_file cloud with
  | (false, cloud1, _) => .returned false cloud1 matches_
  | (true, cloud1, _) =>
    match import_features features_file cloud1 default_behavior with
    | .fatal cloud2 => .fatal cloud2 matches_
    | .returned false cloud2 _ => .returned false cloud2 matches_
    | .returned true cloud2 _ =>
      .returned (import_matches matches_file matches_).1 cloud2
        (import_matches matches_file matches_).2

/-! ## Exports and the file system -/

/-- The answers of the file system to the calls one export makes. -/
structure FileSystem where
  /-- Answer of `boost::filesystem::exists(path)`; `none` when the call throws
  `filesystem_error` (the status of the path cannot be determined). -/
  path_exists : Text → Option Bool
  /-- Answer of `boost::filesystem::create_directory(path)`: `some true` when a
  directory was created, `some false` when none was created because it is
  there already, `none` when the call throws `filesystem_error` (the directory
  cannot be created). -/
  create_directory : Text → Option Bool
  /-- Answer of `output_file.is_open()` after `output_file.open(filename, out | trunc)`. -/
  is_open : Text → Bool

/-- How a call that returns a flag ends: it returns the flag, or a `CHECK`
stops the process, or a `filesystem_error` thrown by boost leaves the call
(nothing in `database.cpp` catches it). -/
inductive FlagOutcome where
  | returned (flag : Bool)
  | checkFailed
  | threw
  deriving DecidableEq, Repr

/-- `ensure_directory_exists`. -/
def ensure_directory_exists (fs : FileSystem) (directory : Text) : FlagOutcome :=
  if directory.length = 0 then .checkFailed
  else if directory.head? = some '/' then
    match fs.path_exists directory with
    | none => .threw
    | some true => .returned true
    | some false =>
      match fs.create_directory directory with
      | none => .threw
      | some true => .returned true
      | some false => .returned false
  else .returned false

/-- `filename.rfind(c)`: index of the last occurrence, `none` for `npos`. -/
def rfind (c : Char) : Text → Option Nat
  | [] => none
  | x :: xs =>
    match rfind c xs with
    | some pos => some (pos + 1)
    | none => if x = c then some 0 else none

/-- `ensure_directory_exists_for_filename`. -/
def ensure_directory_exists_for_filename (fs : FileSystem) (filename : Text) : FlagOutcome :=
  match rfind '/' filename with
  | some pos => ensure_directory_exists fs (filename.take pos)
  | none => .returned false

/-- Result of `export_matches`: the returned flag and the text written to the
file when it was opened; or the stop at the `CHECK` of
`ensure_directory_exists`; or the `filesystem_error` thrown inside
`ensure_directory_exists`, which leaves `export_matches` before the file is
opened. -/
inductive ExportOutcome where
  | returned (success : Bool) (written : Option Text)
  | checkFailed
  | threw
  deriving DecidableEq, Repr

/-- `export_matches`: the flag that `ensure_directory_exists_for_filename`
returns is not looked at. -/
def export_matches (fs : FileSystem) (filename : Text) (matches_ : IdMatches) : ExportOutcome :=
  match ensure_directory_exists_for_filename fs filename with
  | .checkFailed => .checkFailed
  | .threw => .threw
  | .returned _ =>
    if fs.is_open filename then .returned true (some (matchesText matches_))
    else .returned false none

/-- `export_segments`, how it ends and its returned flag; the text written
holds the coordinates and is not part of the model. -/
def export_segments (fs : FileSystem) (filename : Text) (_segmented_cloud : SegmentedCloud) :
    FlagOutcome :=
  match ensure_directory_exists_for_filename fs filename with
  | .checkFailed => .checkFailed
  | .threw => .threw
  | .returned _ => if fs.is_open filename then .returned true else .returned false

/-- `export_features`, how it ends and its returned flag; the text written
holds the feature values and is not part of the model. -/
def export_features (fs : FileSystem) (filename : Text) (_segmented_cloud : SegmentedCloud) :
    FlagOutcome :=
  match ensure_directory_exists_for_filename fs filename with
  | .checkFailed => .checkFailed
  | .threw => .threw
  | .returned _ => if fs.is_open filename then .returned true else .returned false

/-- No id is a member of two groups at different positions of the store. -/
def DisjointGroups (s : IdMatches) : Prop :=
  ∀ (i j : Nat) (gi gj : List Id), s[i]? = some gi → s[j]? = some gj → i ≠ j →
    ∀ x ∈ gi, x ∉ gj

/-- A pending run `(i, P)` put in front of a sequence of runs: it joins the
first run when that has the same id. -/
def prependRun (i : Id) (P : List PointI) : List (Id × List PointI) → List (Id × List PointI)
  | [] => [(i, P)]
  | (j, ps) :: more => if i = j then (j, P ++ ps) :: more else (i, P) :: (j, ps) :: more

/-- The segments of a sequence of runs stored one after the other with
`storeSegment`. -/
def storeRuns : List (Id × List PointI) → SegmentedCloud → Nat → SegmentedCloud × Nat
  | [], cloud, count => (cloud, count)
  | r :: rs, cloud, count =>
    storeRuns rs (storeSegment cloud count (runSegment r)).1
      (storeSegment cloud count (runSegment r)).2

/-! ## The linear scan -/

theorem findCol_eq_none {id : Id} {g : List Id} {j : Nat} :
    findCol id g j = none ↔ id ∉ g := by
  induction g generalizing j with
  | nil => simp [findCol]
  | cons x xs ih =>
    by_cases h : id = x
    · simp [findCol, h]
    · simp [findCol, h, ih]

theorem findCol_of_mem {id : Id} {g : List Id} (h : id ∈ g) (j : Nat) :
    ∃ c, findCol id g j = some (j + c) ∧ c < g.length ∧ g.eraseIdx c = g.erase id := by
  induction g generalizing j with
  | nil => simp at h
  | cons x xs ih =>
    by_cases hx : id = x
    · exact ⟨0, by simp [findCol, hx]⟩
    · have hmem : id ∈ xs := by
        rcases List.mem_cons.1 h with h1 | h1
        · exact absurd h1 hx
        · exact h1
      obtain ⟨c, hc, hlt, he⟩ := ih hmem (j + 1)
      refine ⟨c + 1, ?_, by simpa using hlt, ?_⟩
      · simp [findCol, hx, hc]; omega
      · have hx2 : ¬ x = id := fun e => hx e.symm
        simp [List.erase_cons, hx2, he]

theorem findIdFrom_eq_none {id : Id} {s : List (List Id)} {i : Nat} :
    findIdFrom id s i = none ↔ ∀ g ∈ s, id ∉ g := by
  induction s generalizing i with
  | nil => simp [findIdFrom]
  | cons g rest ih =>
    by_cases h : id ∈ g
    · obtain ⟨c, hc, -, -⟩ := findCol_of_mem h 0
      simp [findIdFrom, hc, h]
    · have hn : findCol id g 0 = none := findCol_eq_none.2 h
      simp [findIdFrom, hn, ih, h]

theorem findIdFrom_first {id : Id} {A : List (List Id)} {G : List Id}
    (h : FirstIn id A G) (B : List (List Id)) (i : Nat) :
    ∃ c, findIdFrom id (A ++ G :: B) i = some ⟨i + A.length, c⟩ ∧ c < G.length ∧
      G.eraseIdx c = G.erase id := by
  induction A generalizing i with
  | nil =>
    obtain ⟨c, hc, hlt, he⟩ := findCol_of_mem h.2 0
    exact ⟨c, by simp [findIdFrom, hc], hlt, he⟩
  | cons g rest ih =>
    have hg : findCol id g 0 = none := findCol_eq_none.2 (h.1 g (by simp))
    have hrest : FirstIn id rest G := ⟨fun g' hg' => h.1 g' (by simp [hg']), h.2⟩
    obtain ⟨c, hc, hlt, he⟩ := ih hrest (i + 1)
    refine ⟨c, ?_, hlt, he⟩
    have hi : i + 1 + rest.length = i + (rest.length + 1) := by omega
    rw [hi] at hc
    simp only [List.cons_append, findIdFrom, hg, List.length_cons]
    exact hc

theorem findId_eq_none {s : IdMatches} {id : Id} : findId s id = none ↔ ¬ Occurs s id := by
  simp [findId, findIdFrom_eq_none, Occurs]

theorem findId_first {id : Id} {A : List (List Id)} {G : List Id}
    (h : FirstIn id A G) (B : List (List Id)) :
    ∃ c, findId (A ++ G :: B) id = some ⟨A.length, c⟩ ∧ c < G.length ∧
      G.eraseIdx c = G.erase id := by
  simpa [findId] using findIdFrom_first h B 0

/-- An id that occurs in the store has a first group holding it. -/
theorem occurs_split {s : IdMatches} {id : Id} (h : Occurs s id) :
    ∃ A G B, s = A ++ G :: B ∧ FirstIn id A G := by
  induction s with
  | nil => obtain ⟨g, hg, -⟩ := h; simp at hg
  | cons g rest ih =>
    by_cases hg : id ∈ g
    · exact ⟨[], g, rest, rfl, by simp [FirstIn, hg]⟩
    · have hr : Occurs rest id := by
        obtain ⟨g', hg', hm⟩ := h
        rcases List.mem_cons.1 hg' with e | e
        · subst e; exact absurd hm hg
        · exact ⟨g', e, hm⟩
      obtain ⟨A, G, B, hs, hA, hG⟩ := ih hr
      refine ⟨g :: A, G, B, by simp [hs], ?_, hG⟩
      intro g' hg'
      rcases List.mem_cons.1 hg' with e | e
      · subst e; exact hg
      · exact hA g' e

/-! ## Indexing a store at the position of a group -/

theorem getElem?_mid (A : List (List Id)) (G : List Id) (B : List (List Id)) :
    (A ++ G :: B)[A.length]? = some G := by
  induction A with
  | nil => simp
  | cons a A ih => simpa using ih

theorem set_mid (A : List (List Id)) (G X : List Id) (B : List (List Id)) :
    (A ++ G :: B).set A.length X = A ++ X :: B := by
  induction A with
  | nil => rfl
  | cons a A ih => simp

theorem eraseIdx_mid (A : List (List Id)) (G : List Id) (B : List (List Id)) :
    (A ++ G :: B).eraseIdx A.length = A ++ B := by
  induction A with
  | nil => rfl
  | cons a A ih => simpa using ih

/-! ## `addMatch`, branch by branch -/

theorem addMatch_fresh {s : IdMatches} {id1 id2 : Id} (hne : id1 ≠ id2)
    (h1 : ¬ Occurs s id1) (h2 : ¬ Occurs s id2) :
    addMatch s id1 id2 = .done (s ++ [[id1, id2]]) := by
  simp [addMatch, hne, findId_eq_none.2 h1, findId_eq_none.2 h2]

theorem addMatch_left {A : List (List Id)} {G : List Id} (B : List (List Id))
    {id1 id2 : Id} (hne : id1 ≠ id2) (h1 : FirstIn id1 A G)
    (h2 : ¬ Occurs (A ++ G :: B) id2) :
    addMatch (A ++ G :: B) id1 id2 = .done (A ++ (G ++ [id2]) :: B) := by
  obtain ⟨c, hc, -, -⟩ := findId_first h1 B
  simp only [addMatch, hne, if_false, hc, findId_eq_none.2 h2, getElem?_mid, set_mid]

theorem addMatch_right {A : List (List Id)} {G : List Id} (B : List (List Id))
    {id1 id2 : Id} (hne : id1 ≠ id2) (h2 : FirstIn id2 A G)
    (h1 : ¬ Occurs (A ++ G :: B) id1) :
    addMatch (A ++ G :: B) id1 id2 = .done (A ++ (G ++ [id1]) :: B) := by
  obtain ⟨c, hc, -, -⟩ := findId_first h2 B
  simp only [addMatch, hne, if_false, hc, findId_eq_none.2 h1, getElem?_mid, set_mid]

theorem addMatch_same {A : List (List Id)} {G : List Id} (B : List (List Id))
    {id1 id2 : Id} (hne : id1 ≠ id2) (h1 : FirstIn id1 A G) (h2 : FirstIn id2 A G) :
    addMatch (A ++ G :: B) id1 id2 = .done (A ++ G :: B) := by
  obtain ⟨c1, hc1, -, -⟩ := findId_first h1 B
  obtain ⟨c2, hc2, -, -⟩ := findId_first h2 B
  simp [addMatch, hne, hc1, hc2]

theorem merge_forward {A M : List (List Id)} {G1 G2 : List Id} (C : List (List Id))
    {id1 id2 : Id} (hne : id1 ≠ id2) (h1 : FirstIn id1 A G1)
    (h2 : FirstIn id2 (A ++ G1 :: M) G2) :
    addMatch (A ++ G1 :: (M ++ G2 :: C)) id1 id2 = .done (A ++ (G2 ++ G1) :: (M ++ C)) := by
  obtain ⟨c1, hc1, -, -⟩ := findId_first h1 (M ++ G2 :: C)
  obtain ⟨c2, hc2, -, -⟩ := findId_first h2 C
  obtain ⟨c3, hc3, -, -⟩ := findId_first h1 (M ++ C)
  have e1 : A ++ G1 :: (M ++ G2 :: C) = (A ++ G1 :: M) ++ G2 :: C := by simp
  have e2 : (A ++ G1 :: M) ++ C = A ++ G1 :: (M ++ C) := by simp
  have hrow : ¬ A.length = (A ++ G1 :: M).length := by simp
  rw [e1] at hc1 ⊢
  simp only [addMatch, hne, if_false, hc1, hc2, ne_eq, hrow, not_false_eq_true, if_true,
    getElem?_mid, eraseIdx_mid]
  rw [e2]
  simp only [hc3, getElem?_mid, set_mid]

theorem merge_backward {A M : List (List Id)} {G1 G2 : List Id} (C : List (List Id))
    {id1 id2 : Id} (hne : id1 ≠ id2) (h2 : FirstIn id2 A G2)
    (h1 : FirstIn id1 (A ++ G2 :: M) G1) :
    addMatch (A ++ G2 :: (M ++ G1 :: C)) id1 id2 = .done (A ++ (M ++ (G2 ++ G1) :: C)) := by
  have h1' : FirstIn id1 (A ++ M) G1 :=
    ⟨fun g hg => h1.1 g (by
      rcases List.mem_append.1 hg with h | h
      · exact List.mem_append.2 (Or.inl h)
      · exact List.mem_append.2 (Or.inr (List.mem_cons_of_mem _ h))), h1.2⟩
  obtain ⟨c1, hc1, -, -⟩ := findId_first h1 C
  obtain ⟨c2, hc2, -, -⟩ := findId_first h2 (M ++ G1 :: C)
  obtain ⟨c3, hc3, -, -⟩ := findId_first h1' C
  have e1 : (A ++ G2 :: M) ++ G1 :: C = A ++ G2 :: (M ++ G1 :: C) := by simp
  have e2 : A ++ (M ++ G1 :: C) = (A ++ M) ++ G1 :: C := by simp
  have e3 : (A ++ M) ++ (G2 ++ G1) :: C = A ++ (M ++ (G2 ++ G1) :: C) := by simp
  have hrow : ¬ (A ++ G2 :: M).length = A.length := by simp
  rw [e1] at hc1
  simp only [addMatch, hne, if_false, hc1, hc2, ne_eq, hrow, not_false_eq_true, if_true,
    getElem?_mid, eraseIdx_mid]
  rw [e2]
  simp only [hc3, getElem?_mid, set_mid, e3]

/-- Two ways of singling out an element of a list either single out the same
position or one position lies strictly before the other. -/
theorem split_compare {α : Type} {A1 B1 A2 B2 : List α} {x y : α}
    (h : A1 ++ x :: B1 = A2 ++ y :: B2) :
    (A1 = A2 ∧ x = y ∧ B1 = B2) ∨
    (∃ M, A2 = A1 ++ x :: M ∧ B1 = M ++ y :: B2) ∨
    (∃ M, A1 = A2 ++ y :: M ∧ B2 = M ++ x :: B1) := by
  induction A1 generalizing A2 with
  | nil =>
    cases A2 with
    | nil =>
      simp only [List.nil_append, List.cons.injEq] at h
      exact Or.inl ⟨rfl, h.1, h.2⟩
    | cons a A2 =>
      simp only [List.nil_append, List.cons_append, List.cons.injEq] at h
      exact Or.inr (Or.inl ⟨A2, by simp [h.1], h.2⟩)
  | cons a A1 ih =>
    cases A2 with
    | nil =>
      simp only [List.nil_append, List.cons_append, List.cons.injEq] at h
      exact Or.inr (Or.inr ⟨A1, by simp [h.1], h.2.symm⟩)
    | cons b A2 =>
      simp only [List.cons_append, List.cons.injEq] at h
      obtain ⟨hab, ht⟩ := h
      rcases ih ht with ⟨e1, e2, e3⟩ | ⟨M, e1, e2⟩ | ⟨M, e1, e2⟩
      · exact Or.inl ⟨by simp [hab, e1], e2, e3⟩
      · exact Or.inr (Or.inl ⟨M, by simp [hab, e1], e2⟩)
      · exact Or.inr (Or.inr ⟨M, by simp [hab, e1], e2⟩)

/-- Every call with distinct arguments returns normally, along one of the six
paths. -/
theorem addMatch_step (s : IdMatches) {id1 id2 : Id} (hne : id1 ≠ id2) :
    ∃ s1, addMatch s id1 id2 = .done s1 ∧ Step id1 id2 s s1 := by
  by_cases h1 : Occurs s id1
  · obtain ⟨A1, G1, B1, hs1, f1⟩ := occurs_split h1
    by_cases h2 : Occurs s id2
    · obtain ⟨A2, G2, B2, hs2, f2⟩ := occurs_split h2
      have hEq : A1 ++ G1 :: B1 = A2 ++ G2 :: B2 := hs1.symm.trans hs2
      rcases split_compare hEq with ⟨eA, eG, -⟩ | ⟨M, eA, eB⟩ | ⟨M, eA, eB⟩
      · subst eA; subst eG; subst hs1
        exact ⟨_, addMatch_same B1 hne f1 f2, Step.same _ _ _ f1 f2⟩
      · subst eA; subst eB; subst hs1
        exact ⟨_, merge_forward B2 hne f1 f2, Step.mergeFwd _ _ _ _ _ f1 f2⟩
      · subst eA; subst eB; subst hs2
        exact ⟨_, merge_backward B1 hne f2 f1, Step.mergeBwd _ _ _ _ _ f2 f1⟩
    · subst hs1
      exact ⟨_, addMatch_left B1 hne f1 h2, Step.left _ _ _ f1 h2⟩
  · by_cases h2 : Occurs s id2
    · obtain ⟨A2, G2, B2, hs2, f2⟩ := occurs_split h2
      subst hs2
      exact ⟨_, addMatch_right B2 hne f2 h1, Step.right _ _ _ f2 h1⟩
    · exact ⟨_, addMatch_fresh hne h1 h2, Step.fresh _ h1 h2⟩

/-! ## Membership and co-membership over a decomposed store -/

theorem occurs_nil (x : Id) : Occurs [] x ↔ False := by simp [Occurs]

theorem occurs_cons (G : List Id) (B : List (List Id)) (x : Id) :
    Occurs (G :: B) x ↔ x ∈ G ∨ Occurs B x := by simp [Occurs]

theorem occurs_append (A B : List (List Id)) (x : Id) :
    Occurs (A ++ B) x ↔ Occurs A x ∨ Occurs B x := by
  simp only [Occurs, List.mem_append]
  constructor
  · rintro ⟨g, hg | hg, hx⟩
    · exact Or.inl ⟨g, hg, hx⟩
    · exact Or.inr ⟨g, hg, hx⟩
  · rintro (⟨g, hg, hx⟩ | ⟨g, hg, hx⟩)
    · exact ⟨g, Or.inl hg, hx⟩
    · exact ⟨g, Or.inr hg, hx⟩

theorem sameGroup_nil (x y : Id) : SameGroup [] x y ↔ False := by simp [SameGroup]

theorem sameGroup_cons (G : List Id) (B : List (List Id)) (x y : Id) :
    SameGroup (G :: B) x y ↔ (x ∈ G ∧ y ∈ G) ∨ SameGroup B x y := by simp [SameGroup]

theorem sameGroup_append (A B : List (List Id)) (x y : Id) :
    SameGroup (A ++ B) x y ↔ SameGroup A x y ∨ SameGroup B x y := by
  simp only [SameGroup, List.mem_append]
  constructor
  · rintro ⟨g, hg | hg, hx⟩
    · exact Or.inl ⟨g, hg, hx⟩
    · exact Or.inr ⟨g, hg, hx⟩
  · rintro (⟨g, hg, hx⟩ | ⟨g, hg, hx⟩)
    · exact ⟨g, Or.inl hg, hx⟩
    · exact ⟨g, Or.inr hg, hx⟩

theorem occurs_iff_mem_flatten (s : IdMatches) (x : Id) : Occurs s x ↔ x ∈ s.flatten := by
  simp [Occurs, List.mem_flatten]

theorem firstIn_occurs {id : Id} {A : List (List Id)} {G : List Id} (h : FirstIn id A G) :
    ¬ Occurs A id := by
  rintro ⟨g, hg, hx⟩
  exact h.1 g hg hx

theorem sameGroup_occurs_left {s : IdMatches} {x y : Id} (h : SameGroup s x y) :
    Occurs s x := by
  obtain ⟨g, hg, hx, -⟩ := h
  exact ⟨g, hg, hx⟩

theorem sameGroup_symm {s : IdMatches} {x y : Id} (h : SameGroup s x y) :
    SameGroup s y x := by
  obtain ⟨g, hg, hx, hy⟩ := h
  exact ⟨g, hg, hy, hx⟩

theorem sameGroup_self {s : IdMatches} {x : Id} (h : Occurs s x) : SameGroup s x x := by
  obtain ⟨g, hg, hx⟩ := h
  exact ⟨g, hg, hx, hx⟩

/-! ## What one call does to the store, as sets of ids -/

theorem step_occurs {id1 id2 : Id} {s s1 : IdMatches} (h : Step id1 id2 s s1) (x : Id) :
    Occurs s1 x ↔ Occurs s x ∨ x = id1 ∨ x = id2 := by
  cases h with
  | fresh _ h1 h2 =>
    simp only [occurs_append, occurs_cons, occurs_nil, List.mem_cons, List.mem_singleton,
      List.not_mem_nil, or_false]
  | left A G B f1 h2 =>
    have := f1.2
    simp only [occurs_append, occurs_cons, List.mem_append, List.mem_singleton]
    constructor
    · rintro (h | (h | h) | h) <;> tauto
    · rintro ((h | h | h) | h | h) <;> first | tauto | (subst h; tauto)
  | right A G B f2 h1 =>
    have := f2.2
    simp only [occurs_append, occurs_cons, List.mem_append, List.mem_singleton]
    constructor
    · rintro (h | (h | h) | h) <;> tauto
    · rintro ((h | h | h) | h | h) <;> first | tauto | (subst h; tauto)
  | same A G B f1 f2 =>
    have := f1.2
    have := f2.2
    simp only [occurs_append, occurs_cons]
    constructor
    · tauto
    · rintro (h | h | h) <;> first | tauto | (subst h; tauto)
  | mergeFwd A G1 M G2 C f1 f2 =>
    have := f1.2
    have := f2.2
    simp only [occurs_append, occurs_cons, List.mem_append]
    constructor
    · tauto
    · rintro (h | h | h) <;> first | tauto | (subst h; tauto)
  | mergeBwd A G2 M G1 C f2 f1 =>
    have := f1.2
    have := f2.2
    simp only [occurs_append, occurs_cons, List.mem_append]
    constructor
    · tauto
    · rintro (h | h | h) <;> first | tauto | (subst h; tauto)

theorem step_sameGroup_mono {id1 id2 : Id} {s s1 : IdMatches} (h : Step id1 id2 s s1)
    {x y : Id} (hxy : SameGroup s x y) : SameGroup s1 x y := by
  cases h with
  | fresh _ h1 h2 => simp only [sameGroup_append]; exact Or.inl hxy
  | left A G B f1 h2 =>
    simp only [sameGroup_append, sameGroup_cons, List.mem_append] at hxy ⊢; tauto
  | right A G B f2 h1 =>
    simp only [sameGroup_append, sameGroup_cons, List.mem_append] at hxy ⊢; tauto
  | same A G B f1 f2 => exact hxy
  | mergeFwd A G1 M G2 C f1 f2 =>
    simp only [sameGroup_append, sameGroup_cons, List.mem_append] at hxy ⊢; tauto
  | mergeBwd A G2 M G1 C f2 f1 =>
    simp only [sameGroup_append, sameGroup_cons, List.mem_append] at hxy ⊢; tauto

theorem step_sameGroup_pair {id1 id2 : Id} {s s1 : IdMatches} (h : Step id1 id2 s s1) :
    SameGroup s1 id1 id2 := by
  cases h with
  | fresh _ h1 h2 => simp [sameGroup_append, sameGroup_cons]
  | left A G B f1 h2 =>
    have := f1.2
    simp only [sameGroup_append, sameGroup_cons, List.mem_append, List.mem_singleton]; tauto
  | right A G B f2 h1 =>
    have := f2.2
    simp only [sameGroup_append, sameGroup_cons, List.mem_append, List.mem_singleton]; tauto
  | same A G B f1 f2 =>
    have := f1.2
    have := f2.2
    simp only [sameGroup_append, sameGroup_cons]; tauto
  | mergeFwd A G1 M G2 C f1 f2 =>
    have := f1.2
    have := f2.2
    simp only [sameGroup_append, sameGroup_cons, List.mem_append]; tauto
  | mergeBwd A G2 M G1 C f2 f1 =>
    have := f1.2
    have := f2.2
    simp only [sameGroup_append, sameGroup_cons, List.mem_append]; tauto

theorem tied_of_mem {s : IdMatches} {G : List Id} {z x : Id} (hG : G ∈ s) (hz : z ∈ G)
    (hx : x ∈ G) : Tied s z x :=
  Or.inr ⟨G, hG, hz, hx⟩

/-- Each group after the call is a group from before, or holds only ids tied
to one of the two arguments. -/
theorem step_groups {id1 id2 : Id} {s s1 : IdMatches} (h : Step id1 id2 s s1)
    {g : List Id} (hg : g ∈ s1) :
    g ∈ s ∨ ∀ z ∈ g, Tied s id1 z ∨ Tied s id2 z := by
  cases h with
  | fresh _ h1 h2 =>
    rcases List.mem_append.1 hg with h | h
    · exact Or.inl h
    · right
      intro z hz
      rw [List.mem_singleton.1 h] at hz
      simp only [List.mem_cons, List.mem_singleton, List.not_mem_nil, or_false] at hz
      rcases hz with e | e
      · exact Or.inl (Or.inl e)
      · exact Or.inr (Or.inl e)
  | left A G B f1 h2 =>
    have hGs : G ∈ A ++ G :: B := by simp
    rcases List.mem_append.1 hg with h | h
    · exact Or.inl (List.mem_append.2 (Or.inl h))
    · rcases List.mem_cons.1 h with e | e
      · right
        intro z hz
        rw [e] at hz
        rcases List.mem_append.1 hz with hz1 | hz1
        · exact Or.inl (tied_of_mem hGs f1.2 hz1)
        · exact Or.inr (Or.inl (List.mem_singleton.1 hz1))
      · exact Or.inl (List.mem_append.2 (Or.inr (List.mem_cons_of_mem _ e)))
  | right A G B f2 h1 =>
    have hGs : G ∈ A ++ G :: B := by simp
    rcases List.mem_append.1 hg with h | h
    · exact Or.inl (List.mem_append.2 (Or.inl h))
    · rcases List.mem_cons.1 h with e | e
      · right
        intro z hz
        rw [e] at hz
        rcases List.mem_append.1 hz with hz1 | hz1
        · exact Or.inr (tied_of_mem hGs f2.2 hz1)
        · exact Or.inl (Or.inl (List.mem_singleton.1 hz1))
      · exact Or.inl (List.mem_append.2 (Or.inr (List.mem_cons_of_mem _ e)))
  | same A G B f1 f2 => exact Or.inl hg
  | mergeFwd A G1 M G2 C f1 f2 =>
    have hG1 : G1 ∈ A ++ G1 :: (M ++ G2 :: C) := by simp
    have hG2 : G2 ∈ A ++ G1 :: (M ++ G2 :: C) := by simp
    simp only [List.mem_append, List.mem_cons] at hg
    rcases hg with h | h | h | h
    · left; simp [h]
    · right
      intro z hz
      rw [h] at hz
      rcases List.mem_append.1 hz with hz1 | hz1
      · exact Or.inr (tied_of_mem hG2 f2.2 hz1)
      · exact Or.inl (tied_of_mem hG1 f1.2 hz1)
    · left; simp [h]
    · left; simp [h]
  | mergeBwd A G2 M G1 C f2 f1 =>
    have hG1 : G1 ∈ A ++ G2 :: (M ++ G1 :: C) := by simp
    have hG2 : G2 ∈ A ++ G2 :: (M ++ G1 :: C) := by simp
    simp only [List.mem_append, List.mem_cons] at hg
    rcases hg with h | h | h | h
    · left; simp [h]
    · left; simp [h]
    · right
      intro z hz
      rw [h] at hz
      rcases List.mem_append.1 hz with hz1 | hz1
      · exact Or.inr (tied_of_mem hG2 f2.2 hz1)
      · exact Or.inl (tied_of_mem hG1 f1.2 hz1)
    · left; simp [h]

theorem step_sameGroup_inv {id1 id2 : Id} {s s1 : IdMatches} (h : Step id1 id2 s s1)
    {x y : Id} (hxy : SameGroup s1 x y) :
    SameGroup s x y ∨
      ((Tied s id1 x ∨ Tied s id2 x) ∧ (Tied s id1 y ∨ Tied s id2 y)) := by
  obtain ⟨g, hg, hx, hy⟩ := hxy
  rcases step_groups h hg with h1 | h1
  · exact Or.inl ⟨g, h1, hx, hy⟩
  · exact Or.inr ⟨h1 x hx, h1 y hy⟩

/-! ## The invariants of one call -/

theorem step_partition {id1 id2 : Id} (hne : id1 ≠ id2) {s s1 : IdMatches}
    (h : Step id1 id2 s s1) (hs : Partition s) : Partition s1 := by
  unfold Partition at hs ⊢
  cases h with
  | fresh _ h1 h2 =>
    rw [occurs_iff_mem_flatten] at h1 h2
    have hp : (s ++ [[id1, id2]]).flatten.Perm (id1 :: id2 :: s.flatten) :=
      List.perm_iff_count.2 (fun a => by
        simp only [List.flatten_append, List.flatten_cons, List.flatten_nil,
          List.count_append, List.count_cons, List.count_nil]
        omega)
    rw [hp.nodup_iff]
    refine List.nodup_cons.2 ⟨?_, List.nodup_cons.2 ⟨h2, hs⟩⟩
    intro hm
    rcases List.mem_cons.1 hm with e | e
    · exact hne e
    · exact h1 e
  | left A G B f1 h2 =>
    rw [occurs_iff_mem_flatten] at h2
    have hp : (A ++ (G ++ [id2]) :: B).flatten.Perm (id2 :: (A ++ G :: B).flatten) :=
      List.perm_iff_count.2 (fun a => by
        simp only [List.flatten_append, List.flatten_cons, List.flatten_nil,
          List.count_append, List.count_cons, List.count_nil]
        omega)
    rw [hp.nodup_iff]
    exact List.nodup_cons.2 ⟨h2, hs⟩
  | right A G B f2 h1 =>
    rw [occurs_iff_mem_flatten] at h1
    have hp : (A ++ (G ++ [id1]) :: B).flatten.Perm (id1 :: (A ++ G :: B).flatten) :=
      List.perm_iff_count.2 (fun a => by
        simp only [List.flatten_append, List.flatten_cons, List.flatten_nil,
          List.count_append, List.count_cons, List.count_nil]
        omega)
    rw [hp.nodup_iff]
    exact List.nodup_cons.2 ⟨h1, hs⟩
  | same A G B f1 f2 => exact hs
  | mergeFwd A G1 M G2 C f1 f2 =>
    have hp : (A ++ (G2 ++ G1) :: (M ++ C)).flatten.Perm
        (A ++ G1 :: (M ++ G2 :: C)).flatten :=
      List.perm_iff_count.2 (fun a => by
        simp only [List.flatten_append, List.flatten_cons, List.count_append]
        omega)
    rw [hp.nodup_iff]
    exact hs
  | mergeBwd A G2 M G1 C f2 f1 =>
    have hp : (A ++ (M ++ (G2 ++ G1) :: C)).flatten.Perm
        (A ++ G2 :: (M ++ G1 :: C)).flatten :=
      List.perm_iff_count.2 (fun a => by
        simp only [List.flatten_append, List.flatten_cons, List.count_append]
        omega)
    rw [hp.nodup_iff]
    exact hs

theorem step_size {id1 id2 : Id} {s s1 : IdMatches} (h : Step id1 id2 s s1)
    (hs : ∀ g ∈ s, 2 ≤ g.length) : ∀ g ∈ s1, 2 ≤ g.length := by
  cases h with
  | fresh _ h1 h2 =>
    simp only [List.forall_mem_append, List.forall_mem_cons] at hs ⊢
    exact ⟨hs, by simp, by simp⟩
  | left A G B f1 h2 =>
    simp only [List.forall_mem_append, List.forall_mem_cons, List.length_append] at hs ⊢
    exact ⟨hs.1, by omega, hs.2.2⟩
  | right A G B f2 h1 =>
    simp only [List.forall_mem_append, List.forall_mem_cons, List.length_append] at hs ⊢
    exact ⟨hs.1, by omega, hs.2.2⟩
  | same A G B f1 f2 => exact hs
  | mergeFwd A G1 M G2 C f1 f2 =>
    simp only [List.forall_mem_append, List.forall_mem_cons, List.length_append] at hs ⊢
    exact ⟨hs.1, by omega, hs.2.2.1, hs.2.2.2.2⟩
  | mergeBwd A G2 M G1 C f2 f1 =>
    simp only [List.forall_mem_append, List.forall_mem_cons, List.length_append] at hs ⊢
    exact ⟨hs.1, hs.2.2.1, by omega, hs.2.2.2.2⟩

/-! ## Sequences of calls -/

/-- A sequence of calls with distinct arguments returns normally, and a
property of stores kept by every single call is kept by the sequence. -/
theorem addMatches_induct (P : IdMatches → Prop)
    (hstep : ∀ (s s1 : IdMatches) (a b : Id), a ≠ b → Step a b s s1 → P s → P s1)
    (ps : List (Id × Id)) (hps : ∀ p ∈ ps, p.1 ≠ p.2) (s : IdMatches) (h0 : P s) :
    ∃ s1, addMatches s ps = .done s1 ∧ P s1 := by
  induction ps generalizing s with
  | nil => exact ⟨s, rfl, h0⟩
  | cons p ps ih =>
    have hp : p.1 ≠ p.2 := hps p (by simp)
    obtain ⟨s1, h1, hst⟩ := addMatch_step s hp
    obtain ⟨s2, h2, hP⟩ := ih (fun q hq => hps q (by simp [hq])) s1 (hstep s s1 _ _ hp hst h0)
    exact ⟨s2, by simp [addMatches, h1, h2], hP⟩

theorem reachable_induct (P : IdMatches → Prop) (h0 : P [])
    (hstep : ∀ (s s1 : IdMatches) (a b : Id), a ≠ b → Step a b s s1 → P s → P s1)
    {s : IdMatches} (hs : Reachable s) : P s := by
  obtain ⟨ps, hps, hrun⟩ := hs
  obtain ⟨s1, h1, hP⟩ := addMatches_induct P hstep ps hps [] h0
  rw [h1] at hrun
  cases hrun
  exact hP

theorem reachable_partition {s : IdMatches} (hs : Reachable s) : Partition s :=
  reachable_induct Partition (by simp [Partition])
    (fun _ _ _ _ hne hst h => step_partition hne hst h) hs

/-! ## Partitioned stores -/

theorem partition_firstIn {A : List (List Id)} {G : List Id} {B : List (List Id)}
    (hs : Partition (A ++ G :: B)) {id : Id} (hG : id ∈ G) : FirstIn id A G := by
  refine ⟨?_, hG⟩
  intro g hg hid
  unfold Partition at hs
  rw [List.flatten_append, List.flatten_cons] at hs
  have hd := (List.nodup_append.1 hs).2.2
  exact hd (List.mem_flatten.2 ⟨g, hg, hid⟩) (List.mem_append.2 (Or.inl hG))

theorem partition_group_nodup {s : IdMatches} (hs : Partition s) {g : List Id}
    (hg : g ∈ s) : g.Nodup :=
  (List.nodup_flatten.1 hs).1 g hg

/-- In a partitioned store an id lies in one group only. -/
theorem partition_group_unique {s : IdMatches} (hs : Partition s) {g1 g2 : List Id}
    (h1 : g1 ∈ s) (h2 : g2 ∈ s) {x : Id} (hx1 : x ∈ g1) (hx2 : x ∈ g2) : g1 = g2 := by
  by_contra hne
  have hp := (List.nodup_flatten.1 hs).2
  have hsym : Symmetric (List.Disjoint : List Id → List Id → Prop) :=
    fun _ _ h => h.symm
  exact (hp.forall hsym h1 h2 hne) hx1 hx2

theorem sameGroup_trans {s : IdMatches} (hs : Partition s) {x y z : Id}
    (hxy : SameGroup s x y) (hyz : SameGroup s y z) : SameGroup s x z := by
  obtain ⟨g1, hg1, hx, hy1⟩ := hxy
  obtain ⟨g2, hg2, hy2, hz⟩ := hyz
  have e := partition_group_unique hs hg1 hg2 hy1 hy2
  subst e
  exact ⟨g1, hg1, hx, hz⟩

/-! ## `areIdsMatching` and co-membership -/

theorem areIdsMatching_sameGroup {s : IdMatches} {x y : Id}
    (h : areIdsMatching s x y = true) : SameGroup s x y := by
  by_cases hx : Occurs s x
  · by_cases hy : Occurs s y
    · obtain ⟨A1, G1, B1, hs1, f1⟩ := occurs_split hx
      obtain ⟨A2, G2, B2, hs2, f2⟩ := occurs_split hy
      obtain ⟨c1, hc1, -, -⟩ := findId_first f1 B1
      obtain ⟨c2, hc2, -, -⟩ := findId_first f2 B2
      rw [← hs1] at hc1
      rw [← hs2] at hc2
      simp only [areIdsMatching, hc1, hc2, decide_eq_true_eq] at h
      have hEq : A1 ++ G1 :: B1 = A2 ++ G2 :: B2 := hs1.symm.trans hs2
      rcases split_compare hEq with ⟨-, eG, -⟩ | ⟨M, eA, -⟩ | ⟨M, eA, -⟩
      · subst eG
        exact ⟨G1, by simp [hs1], f1.2, f2.2⟩
      · rw [eA] at h; simp at h
      · rw [eA] at h; simp at h
    · simp [areIdsMatching, findId_eq_none.2 hy] at h
  · simp [areIdsMatching, findId_eq_none.2 hx] at h

theorem sameGroup_areIdsMatching {s : IdMatches} (hs : Partition s) {x y : Id}
    (h : SameGroup s x y) : areIdsMatching s x y = true := by
  obtain ⟨g, hg, hx, hy⟩ := h
  obtain ⟨A, B, e⟩ := List.append_of_mem hg
  subst e
  obtain ⟨c1, hc1, -, -⟩ := findId_first (partition_firstIn hs hx) B
  obtain ⟨c2, hc2, -, -⟩ := findId_first (partition_firstIn hs hy) B
  simp [areIdsMatching, hc1, hc2]

/-! ## The store after a sequence of `addMatch` calls -/

/-- C1, partition invariant: a finite sequence of `addMatch` calls with distinct
arguments, applied to the empty store, returns normally and leaves a store in
which every id occurs at most once: no id is twice inside one group and no id
is in two groups at different positions. -/
theorem addMatches_partition (ps : List (Id × Id)) (hps : ∀ p ∈ ps, p.1 ≠ p.2) :
    ∃ s, addMatches [] ps = .done s ∧
      (∀ x : Id, s.flatten.count x ≤ 1) ∧
      (∀ g ∈ s, g.Nodup) ∧
      (∀ (i j : Nat) (gi gj : List Id), s[i]? = some gi → s[j]? = some gj → i ≠ j →
        ∀ x ∈ gi, x ∉ gj) := by
  obtain ⟨s, hrun, hP⟩ := addMatches_induct Partition
    (fun _ _ _ _ hne hst h => step_partition hne hst h) ps hps [] (by simp [Partition])
  refine ⟨s, hrun, fun x => List.nodup_iff_count_le_one.1 hP x,
    fun g hg => partition_group_nodup hP hg, ?_⟩
  intro i j gi gj hi hj hij x hxi hxj
  have hpw := (List.nodup_flatten.1 hP).2
  obtain ⟨hil, hie⟩ := List.getElem?_eq_some.1 hi
  obtain ⟨hjl, hje⟩ := List.getElem?_eq_some.1 hj
  rcases Nat.lt_or_gt_of_ne hij with hlt | hgt
  · have hd := List.pairwise_iff_getElem.1 hpw i j hil hjl hlt
    rw [hie, hje] at hd
    exact hd hxi hxj
  · have hd := List.pairwise_iff_getElem.1 hpw j i hjl hil hgt
    rw [hie, hje] at hd
    exact hd hxj hxi

theorem addMatches_partition_witness :
    ∃ s, addMatches [] [(1, 2), (3, 4), (2, 3), (5, 1)] = .done s ∧
      (∀ x : Id, s.flatten.count x ≤ 1) ∧
      (∀ g ∈ s, g.Nodup) ∧
      (∀ (i j : Nat) (gi gj : List Id), s[i]? = some gi → s[j]? = some gj → i ≠ j →
        ∀ x ∈ gi, x ∉ gj) :=
  addMatches_partition [(1, 2), (3, 4), (2, 3), (5, 1)] (by decide)

/-- C9, no singleton groups: a finite sequence of `addMatch` calls with distinct
arguments, applied to the empty store, returns normally and every group of the
resulting store has at least two members. -/
theorem addMatches_group_size (ps : List (Id × Id)) (hps : ∀ p ∈ ps, p.1 ≠ p.2) :
    ∃ s, addMatches [] ps = .done s ∧ ∀ g ∈ s, 2 ≤ g.length :=
  addMatches_induct (fun s => ∀ g ∈ s, 2 ≤ g.length)
    (fun _ _ _ _ _ hst h => step_size hst h) ps hps [] (by simp)

theorem addMatches_group_size_witness :
    ∃ s, addMatches [] [(1, 2), (3, 4), (2, 3), (5, 1)] = .done s ∧ ∀ g ∈ s, 2 ≤ g.length :=
  addMatches_group_size [(1, 2), (3, 4), (2, 3), (5, 1)] (by decide)

/-! ## Faults -/

/-- C10, `addMatch` faults if and only if its arguments are equal: on every
store `addMatch id id` stops at `CHECK_NE` with the store as it was, and with
distinct arguments `addMatch` returns normally, so neither the `CHECK` after
the erase nor an `.at()` fails. -/
theorem addMatch_fault_iff (s : IdMatches) (id1 id2 : Id) :
    (id1 = id2 → addMatch s id1 id2 = .fault .checkNe s) ∧
    (id1 ≠ id2 → ∃ s1, addMatch s id1 id2 = .done s1) ∧
    ((∃ f s1, addMatch s id1 id2 = .fault f s1) ↔ id1 = id2) := by
  have hA : id1 = id2 → addMatch s id1 id2 = .fault .checkNe s := by
    intro h; simp [addMatch, h]
  have hB : id1 ≠ id2 → ∃ s1, addMatch s id1 id2 = .done s1 := by
    intro h
    obtain ⟨s1, h1, -⟩ := addMatch_step s h
    exact ⟨s1, h1⟩
  refine ⟨hA, hB, ?_, fun h => ⟨_, _, hA h⟩⟩
  rintro ⟨f, s1, hf⟩
  by_contra hne
  obtain ⟨s2, h2⟩ := hB hne
  rw [h2] at hf
  cases hf

theorem addMatch_fault_iff_witness :
    addMatch [[1, 2], [3, 4]] 7 7 = .fault .checkNe [[1, 2], [3, 4]] ∧
    (∃ s1, addMatch [[1, 2], [3, 4]] 2 3 = .done s1) :=
  ⟨(addMatch_fault_iff [[1, 2], [3, 4]] 7 7).1 rfl,
    (addMatch_fault_iff [[1, 2], [3, 4]] 2 3).2.1 (by decide)⟩

/-! ## The branches of `addMatch` -/

/-- C6, two unseen ids: when neither of two distinct ids occurs in the store,
`addMatch id1 id2` returns the old group sequence followed by the one new group
`[id1, id2]`; the existing groups keep their positions and content and the
group count grows by one. -/
theorem addMatch_two_unseen (s : IdMatches) (id1 id2 : Id) (hne : id1 ≠ id2)
    (h1 : ∀ g ∈ s, id1 ∉ g) (h2 : ∀ g ∈ s, id2 ∉ g) :
    ∃ s1, addMatch s id1 id2 = .done s1 ∧ s1 = s ++ [[id1, id2]] ∧
      s1.length = s.length + 1 ∧ s1[s.length]? = some [id1, id2] ∧
      ∀ i, i < s.length → s1[i]? = s[i]? := by
  have o1 : ¬ Occurs s id1 := fun ⟨g, hg, hx⟩ => h1 g hg hx
  have o2 : ¬ Occurs s id2 := fun ⟨g, hg, hx⟩ => h2 g hg hx
  refine ⟨_, addMatch_fresh hne o1 o2, rfl, by simp, by simp, ?_⟩
  intro i hi
  exact List.getElem?_append_left hi

theorem addMatch_two_unseen_witness :
    ∃ s1, addMatch [[1, 2], [3, 4]] 8 5 = .done s1 ∧ s1 = [[1, 2], [3, 4]] ++ [[8, 5]] ∧
      s1.length = [[1, 2], [3, 4]].length + 1 ∧
      s1[[[1, 2], [3, 4]].length]? = some [8, 5] ∧
      ∀ i, i < [[1, 2], [3, 4]].length → s1[i]? = [[1, 2], [3, 4]][i]? :=
  addMatch_two_unseen [[1, 2], [3, 4]] 8 5 (by decide) (by decide) (by decide)

/-- C7, exactly one known id: when `known` lies in the group `G` (the first
group holding it, which in a partitioned store is the only one) and `other`
occurs nowhere, `addMatch` appends `other` at the end of `G` and changes
nothing else, whichever of the two arguments the known id is. -/
theorem addMatch_one_known (A : List (List Id)) (G : List Id) (B : List (List Id))
    (known other : Id) (hG : known ∈ G) (hA : ∀ g ∈ A, known ∉ g)
    (ho : ∀ g ∈ A ++ G :: B, other ∉ g) :
    addMatch (A ++ G :: B) known other = .done (A ++ (G ++ [other]) :: B) ∧
    addMatch (A ++ G :: B) other known = .done (A ++ (G ++ [other]) :: B) := by
  have f : FirstIn known A G := ⟨hA, hG⟩
  have o : ¬ Occurs (A ++ G :: B) other := fun ⟨g, hg, hx⟩ => ho g hg hx
  have hne : known ≠ other := by
    intro e
    subst e
    exact ho G (by simp) hG
  exact ⟨addMatch_left B hne f o, addMatch_right B (fun e => hne e.symm) f o⟩

theorem addMatch_one_known_witness :
    addMatch ([[1, 2]] ++ [3, 4] :: [[5, 6]]) 4 9 = .done ([[1, 2]] ++ ([3, 4] ++ [9]) :: [[5, 6]]) ∧
    addMatch ([[1, 2]] ++ [3, 4] :: [[5, 6]]) 9 4 = .done ([[1, 2]] ++ ([3, 4] ++ [9]) :: [[5, 6]]) :=
  addMatch_one_known [[1, 2]] [3, 4] [[5, 6]] 4 9 (by decide) (by decide) (by decide)

/-- C4, merge with the prepend tie-break: in a partitioned store where `id1`
is in group `G1` and `id2` in another group `G2`, `addMatch id1 id2` removes
`G2` from the group sequence and puts `G2 ++ G1` in the place of `G1`, the
other groups keeping their content and relative order, whether `G1` comes
before `G2` or after it; from `[[1,2],[3,4]]`, `addMatch 2 3` gives
`[[3,4,1,2]]`. -/
theorem addMatch_merge (A M C : List (List Id)) (G1 G2 : List Id) (id1 id2 : Id)
    (h1 : id1 ∈ G1) (h2 : id2 ∈ G2) :
    (Partition (A ++ G1 :: (M ++ G2 :: C)) →
      addMatch (A ++ G1 :: (M ++ G2 :: C)) id1 id2 = .done (A ++ (G2 ++ G1) :: (M ++ C))) ∧
    (Partition (A ++ G2 :: (M ++ G1 :: C)) →
      addMatch (A ++ G2 :: (M ++ G1 :: C)) id1 id2 = .done (A ++ (M ++ (G2 ++ G1) :: C))) ∧
    addMatch [[1, 2], [3, 4]] 2 3 = .done [[3, 4, 1, 2]] := by
  refine ⟨?_, ?_, by decide⟩
  · intro hs
    have f1 : FirstIn id1 A G1 := partition_firstIn hs h1
    have e : A ++ G1 :: (M ++ G2 :: C) = (A ++ G1 :: M) ++ G2 :: C := by simp
    have f2 : FirstIn id2 (A ++ G1 :: M) G2 := by
      rw [e] at hs
      exact partition_firstIn hs h2
    have hne : id1 ≠ id2 := by
      intro e1
      subst e1
      exact f2.1 G1 (by simp) h1
    exact merge_forward C hne f1 f2
  · intro hs
    have f2 : FirstIn id2 A G2 := partition_firstIn hs h2
    have e : A ++ G2 :: (M ++ G1 :: C) = (A ++ G2 :: M) ++ G1 :: C := by simp
    have f1 : FirstIn id1 (A ++ G2 :: M) G1 := by
      rw [e] at hs
      exact partition_firstIn hs h1
    have hne : id1 ≠ id2 := by
      intro e1
      subst e1
      exact f1.1 G2 (by simp) h2
    exact merge_backward C hne f2 f1

theorem addMatch_merge_witness :
    addMatch ([[7, 8]] ++ [1, 2] :: ([[5, 6]] ++ [3, 4] :: [[9, 10]])) 2 3
        = .done ([[7, 8]] ++ ([3, 4] ++ [1, 2]) :: ([[5, 6]] ++ [[9, 10]])) ∧
    addMatch ([[7, 8]] ++ [3, 4] :: ([[5, 6]] ++ [1, 2] :: [[9, 10]])) 2 3
        = .done ([[7, 8]] ++ ([[5, 6]] ++ ([3, 4] ++ [1, 2]) :: [[9, 10]])) :=
  ⟨(addMatch_merge [[7, 8]] [[5, 6]] [[9, 10]] [1, 2] [3, 4] 2 3 (by decide) (by decide)).1
      (by decide),
    (addMatch_merge [[7, 8]] [[5, 6]] [[9, 10]] [1, 2] [3, 4] 2 3 (by decide)
      (by decide)).2.1 (by decide)⟩

/-- C5, idempotence of matching: for distinct ids, `addMatch a b` leaves the
store as it is when `areIdsMatching a b` already holds, and in a partitioned
store when `a` and `b` are members of one group; on a store reachable from the
empty store a second `addMatch a b` returns the very store the first one
returned (same groups, same group order, same order inside the groups). -/
theorem addMatch_idempotent (s : IdMatches) (a b : Id) (hne : a ≠ b) :
    (areIdsMatching s a b = true → addMatch s a b = .done s) ∧
    (Partition s → SameGroup s a b → addMatch s a b = .done s) ∧
    (Reachable s → ∃ s1, addMatch s a b = .done s1 ∧ addMatch s1 a b = .done s1) := by
  have hP : ∀ t : IdMatches, Partition t → SameGroup t a b → addMatch t a b = .done t := by
    intro t ht hab
    obtain ⟨g, hg, ha, hb⟩ := hab
    obtain ⟨A, B, e⟩ := List.append_of_mem hg
    subst e
    exact addMatch_same B hne (partition_firstIn ht ha) (partition_firstIn ht hb)
  refine ⟨?_, hP s, ?_⟩
  · intro h
    unfold areIdsMatching at h
    unfold addMatch
    cases h1 : findId s a with
    | none => simp [h1] at h
    | some p1 =>
      cases h2 : findId s b with
      | none => simp [h1, h2] at h
      | some p2 =>
        simp only [h1, h2, decide_eq_true_eq] at h
        simp [hne, h]
  · intro hr
    obtain ⟨s1, h1, hst⟩ := addMatch_step s hne
    exact ⟨s1, h1, hP s1 (step_partition hne hst (reachable_partition hr))
      (step_sameGroup_pair hst)⟩

theorem addMatch_idempotent_witness :
    addMatch [[3, 4, 1, 2]] 2 3 = .done [[3, 4, 1, 2]] ∧
    (∃ s1, addMatch [[1, 2], [3, 4]] 2 3 = .done s1 ∧ addMatch s1 2 3 = .done s1) :=
  ⟨(addMatch_idempotent [[3, 4, 1, 2]] 2 3 (by decide)).2.1 (by decide)
      ⟨[3, 4, 1, 2], by decide, by decide, by decide⟩,
    (addMatch_idempotent [[1, 2], [3, 4]] 2 3 (by decide)).2.2
      ⟨[(1, 2), (3, 4)], by decide, by decide⟩⟩

/-- C3, transitivity: on a store reachable from the empty store, for ids with
`a ≠ b` and `b ≠ c`, `addMatch a b` followed by `addMatch b c` both return
normally and afterwards `areIdsMatching a c` is true. -/
theorem addMatch_transitive (s : IdMatches) (a b c : Id) (hs : Reachable s)
    (hab : a ≠ b) (hbc : b ≠ c) :
    ∃ s1 s2, addMatch s a b = .done s1 ∧ addMatch s1 b c = .done s2 ∧
      areIdsMatching s2 a c = true := by
  obtain ⟨s1, h1, st1⟩ := addMatch_step s hab
  obtain ⟨s2, h2, st2⟩ := addMatch_step s1 hbc
  have p1 : Partition s1 := step_partition hab st1 (reachable_partition hs)
  have p2 : Partition s2 := step_partition hbc st2 p1
  have g1 : SameGroup s2 a b := step_sameGroup_mono st2 (step_sameGroup_pair st1)
  have g2 : SameGroup s2 b c := step_sameGroup_pair st2
  exact ⟨s1, s2, h1, h2, sameGroup_areIdsMatching p2 (sameGroup_trans p2 g1 g2)⟩

theorem addMatch_transitive_witness :
    ∃ s1 s2, addMatch [[1, 2], [3, 4]] 5 1 = .done s1 ∧ addMatch s1 1 4 = .done s2 ∧
      areIdsMatching s2 5 4 = true :=
  addMatch_transitive [[1, 2], [3, 4]] 5 1 4 ⟨[(1, 2), (3, 4)], by decide, by decide⟩
    (by decide) (by decide)

/-! ## `findMatches` -/

/-- C8, `findMatches` contract: in a partitioned store `findMatches id` returns
true exactly when `id` occurs in some group; the output is then that group
with `id` removed, the other members in their order, so it does not contain
`id` and is one element shorter than the group; when `id` occurs nowhere it
returns false with an empty output. The call is a query: it yields the flag
and the output only, the store is not among its results. -/
theorem findMatches_contract (s : IdMatches) (id : Id) (hs : Partition s) :
    ((∃ out, findMatches s id = some (true, out)) ↔ Occurs s id) ∧
    (∀ (A : List (List Id)) (G : List Id) (B : List (List Id)),
      s = A ++ G :: B → id ∈ G →
        findMatches s id = some (true, G.filter (fun x => x != id)) ∧
        id ∉ G.filter (fun x => x != id) ∧
        (G.filter (fun x => x != id)).length + 1 = G.length) ∧
    (¬ Occurs s id → findMatches s id = some (false, [])) := by
  have hno : ¬ Occurs s id → findMatches s id = some (false, []) := by
    intro h
    simp [findMatches, findId_eq_none.2 h]
  have hyes : ∀ (A : List (List Id)) (G : List Id) (B : List (List Id)),
      s = A ++ G :: B → id ∈ G →
        findMatches s id = some (true, G.filter (fun x => x != id)) ∧
        id ∉ G.filter (fun x => x != id) ∧
        (G.filter (fun x => x != id)).length + 1 = G.length := by
    intro A G B e hG
    subst e
    obtain ⟨c, hc, -, he⟩ := findId_first (partition_firstIn hs hG) B
    have hnd : G.Nodup := partition_group_nodup hs (by simp)
    have hf : G.erase id = G.filter (fun x => x != id) := hnd.erase_eq_filter id
    refine ⟨?_, ?_, ?_⟩
    · simp only [findMatches, hc, getElem?_mid, he, hf]
    · simp
    · rw [← hf, List.length_erase_of_mem hG]
      have : 0 < G.length := List.length_pos_of_mem hG
      omega
  refine ⟨⟨?_, ?_⟩, hyes, hno⟩
  · rintro ⟨out, h⟩
    by_contra hn
    rw [hno hn] at h
    simp at h
  · intro h
    obtain ⟨g, hg, hx⟩ := h
    obtain ⟨A, B, e⟩ := List.append_of_mem hg
    exact ⟨_, (hyes A g B e hx).1⟩

theorem findMatches_contract_witness :
    findMatches [[1, 2], [3, 4, 5]] 4 = some (true, [3, 5]) ∧
    findMatches [[1, 2], [3, 4, 5]] 9 = some (false, []) :=
  ⟨((findMatches_contract [[1, 2], [3, 4, 5]] 4 (by decide)).2.1 [[1, 2]] [3, 4, 5] []
      (by decide) (by decide)).1,
    (findMatches_contract [[1, 2], [3, 4, 5]] 9 (by decide)).2.2
      (by simp [Occurs])⟩

/-! ## The groups are the connected components of the asserted matches -/

theorem mentioned_snoc (ps : List (Id × Id)) (a b x : Id) :
    Mentioned (ps ++ [(a, b)]) x ↔ Mentioned ps x ∨ x = a ∨ x = b := by
  simp only [Mentioned, List.mem_append, List.mem_singleton]
  constructor
  · rintro ⟨p, hp | hp, hx⟩
    · exact Or.inl ⟨p, hp, hx⟩
    · subst hp; exact Or.inr hx
  · rintro (⟨p, hp, hx⟩ | hx)
    · exact ⟨p, Or.inl hp, hx⟩
    · exact ⟨(a, b), Or.inr rfl, hx⟩

theorem asserted_snoc_mono {ps : List (Id × Id)} (a b : Id) {x y : Id}
    (h : Relation.EqvGen (Asserted ps) x y) :
    Relation.EqvGen (Asserted (ps ++ [(a, b)])) x y :=
  Relation.EqvGen.mono (fun _ _ h1 => List.mem_append.2 (Or.inl h1)) h

theorem tracks_nil : Tracks [] [] := by
  refine ⟨by simp [Partition], ?_, ?_, ?_⟩
  · intro x; simp [Occurs, Mentioned]
  · intro x y h; simp [SameGroup] at h
  · intro p hp; simp at hp

theorem tracks_step {s s1 : IdMatches} {ps : List (Id × Id)} {a b : Id} (hne : a ≠ b)
    (hst : Step a b s s1) (h : Tracks s ps) : Tracks s1 (ps ++ [(a, b)]) := by
  obtain ⟨hP, hO, hC, hA⟩ := h
  have hab : Relation.EqvGen (Asserted (ps ++ [(a, b)])) a b :=
    Relation.EqvGen.rel _ _ (List.mem_append.2 (Or.inr (List.mem_singleton.2 rfl)))
  have tied : ∀ z x, Tied s z x → Relation.EqvGen (Asserted (ps ++ [(a, b)])) z x := by
    intro z x hz
    rcases hz with e | e
    · subst e; exact Relation.EqvGen.refl _
    · exact asserted_snoc_mono a b (hC _ _ e)
  have toA : ∀ x, Tied s a x ∨ Tied s b x →
      Relation.EqvGen (Asserted (ps ++ [(a, b)])) a x := by
    intro x hx
    rcases hx with e | e
    · exact tied a x e
    · exact Relation.EqvGen.trans _ _ _ hab (tied b x e)
  refine ⟨step_partition hne hst hP, ?_, ?_, ?_⟩
  · intro x
    rw [step_occurs hst x, mentioned_snoc, hO x]
  · intro x y hxy
    rcases step_sameGroup_inv hst hxy with e | ⟨ex, ey⟩
    · exact asserted_snoc_mono a b (hC _ _ e)
    · exact Relation.EqvGen.trans _ _ _ (Relation.EqvGen.symm _ _ (toA x ex)) (toA y ey)
  · intro p hp
    rcases List.mem_append.1 hp with e | e
    · exact step_sameGroup_mono hst (hA p e)
    · rw [List.mem_singleton.1 e]
      exact step_sameGroup_pair hst

theorem tracks_run (qs : List (Id × Id)) (hqs : ∀ p ∈ qs, p.1 ≠ p.2)
    (pre : List (Id × Id)) (s : IdMatches) (h : Tracks s pre) :
    ∃ s1, addMatches s qs = .done s1 ∧ Tracks s1 (pre ++ qs) := by
  induction qs generalizing pre s with
  | nil => exact ⟨s, rfl, by simpa using h⟩
  | cons p qs ih =>
    have hp : p.1 ≠ p.2 := hqs p (by simp)
    obtain ⟨s1, h1, hst⟩ := addMatch_step s hp
    obtain ⟨s2, h2, hT⟩ := ih (fun q hq => hqs q (by simp [hq])) (pre ++ [(p.1, p.2)]) s1
      (tracks_step hp hst h)
    refine ⟨s2, by simp [addMatches, h1, h2], ?_⟩
    simpa using hT

theorem tracks_connected {s : IdMatches} {ps : List (Id × Id)} (h : Tracks s ps) {x y : Id}
    (hxy : Relation.EqvGen (Asserted ps) x y) : x = y ∨ SameGroup s x y := by
  obtain ⟨hP, -, -, hA⟩ := h
  induction hxy with
  | rel u v huv => exact Or.inr (hA (u, v) huv)
  | refl u => exact Or.inl rfl
  | symm u v _ ih =>
    rcases ih with e | e
    · exact Or.inl e.symm
    · exact Or.inr (sameGroup_symm e)
  | trans u v w _ _ ih1 ih2 =>
    rcases ih1 with e1 | e1
    · subst e1; exact ih2
    · rcases ih2 with e2 | e2
      · subst e2; exact Or.inr e1
      · exact Or.inr (sameGroup_trans hP e1 e2)

/-- C2, finest partition: after a finite sequence of `addMatch` calls with
distinct arguments on the empty store, `areIdsMatching x y` is true if and
only if `x` and `y` are both arguments of asserted pairs and are related by the
reflexive, symmetric, transitive closure of the asserted pairs: the groups are
the connected components of the asserted matches. -/
theorem addMatches_finest_partition (ps : List (Id × Id)) (hps : ∀ p ∈ ps, p.1 ≠ p.2) :
    ∃ s, addMatches [] ps = .done s ∧
      ∀ x y, areIdsMatching s x y = true ↔
        (Mentioned ps x ∧ Mentioned ps y ∧ Relation.EqvGen (Asserted ps) x y) := by
  obtain ⟨s, hrun, hT⟩ := tracks_run ps hps [] [] tracks_nil
  rw [List.nil_append] at hT
  refine ⟨s, hrun, ?_⟩
  intro x y
  constructor
  · intro h
    have hg := areIdsMatching_sameGroup h
    exact ⟨(hT.2.1 x).1 (sameGroup_occurs_left hg),
      (hT.2.1 y).1 (sameGroup_occurs_left (sameGroup_symm hg)), hT.2.2.1 x y hg⟩
  · rintro ⟨hx, -, hxy⟩
    rcases tracks_connected hT hxy with e | e
    · subst e
      exact sameGroup_areIdsMatching hT.1 (sameGroup_self ((hT.2.1 x).2 hx))
    · exact sameGroup_areIdsMatching hT.1 e

theorem addMatches_finest_partition_witness :
    ∃ s, addMatches [] [(1, 2), (3, 4), (2, 3), (5, 6)] = .done s ∧
      ∀ x y, areIdsMatching s x y = true ↔
        (Mentioned [(1, 2), (3, 4), (2, 3), (5, 6)] x ∧
          Mentioned [(1, 2), (3, 4), (2, 3), (5, 6)] y ∧
          Relation.EqvGen (Asserted [(1, 2), (3, 4), (2, 3), (5, 6)]) x y) :=
  addMatches_finest_partition [(1, 2), (3, 4), (2, 3), (5, 6)] (by decide)

/-! ## Decimal numerals -/

theorem digitChar_isDigit (d : Nat) (h : d < 10) :
    (digitChar d).isDigit = true ∧ (digitChar d).toNat - 48 = d := by
  revert d
  decide

theorem isDigit_not_special {c : Char} (h : c.isDigit = true) :
    isSpace c = false ∧ c ≠ '\n' ∧ c ≠ '-' ∧ c ≠ '+' ∧ c ≠ ' ' := by
  have h1 : 48 ≤ c.toNat ∧ c.toNat ≤ 57 := by
    simpa [Char.isDigit, Char.toNat, UInt32.le_def, Nat.le_antisymm_iff] using h
  have key : ∀ d : Char, d.toNat < 48 → c ≠ d := by
    intro d hd e
    subst e
    omega
  refine ⟨?_, key _ (by decide), key _ (by decide), key _ (by decide), key _ (by decide)⟩
  have e1 := key ' ' (by decide)
  have e2 := key '\t' (by decide)
  have e3 := key '\n' (by decide)
  have e4 := key (Char.ofNat 11) (by decide)
  have e5 := key (Char.ofNat 12) (by decide)
  have e6 := key '\r' (by decide)
  simp [isSpace, e1, e2, e3, e4, e5, e6]

/-- The value `readDigits` accumulates over a run of digits. -/
theorem readDigits_digits (ds : Text) (hds : ∀ c ∈ ds, c.isDigit = true) (rest : Text)
    (hrest : ∀ c, rest.head? = some c → c.isDigit = false) (v : Nat) :
    readDigits (ds ++ rest) v =
      (ds.foldl (fun a c => 10 * a + (c.toNat - 48)) v, rest) := by
  induction ds generalizing v with
  | nil =>
    cases rest with
    | nil => rfl
    | cons c cs =>
      have hc := hrest c rfl
      simp [readDigits, hc]
  | cons d ds ih =>
    have hd := hds d (by simp)
    simp only [List.cons_append, readDigits, hd, if_true, List.foldl_cons]
    exact ih (fun c hc => hds c (by simp [hc])) _

theorem showNatAux_spec (fuel n : Nat) (acc : Text) (h : n < fuel) :
    ∃ ds, showNatAux fuel n acc = ds ++ acc ∧ ds ≠ [] ∧ (∀ c ∈ ds, c.isDigit = true) ∧
      ∀ v, ds.foldl (fun a c => 10 * a + (c.toNat - 48)) v = v * 10 ^ ds.length + n := by
  induction fuel generalizing n acc with
  | zero => omega
  | succ fuel ih =>
    have hd := digitChar_isDigit (n % 10) (Nat.mod_lt _ (by decide))
    by_cases h0 : n / 10 = 0
    · refine ⟨[digitChar (n % 10)], by simp [showNatAux, h0], by simp, ?_, ?_⟩
      · intro c hc
        rw [List.mem_singleton.1 hc]
        exact hd.1
      · intro v
        simp only [List.foldl_cons, List.foldl_nil, hd.2, List.length_singleton, pow_one]
        have := Nat.div_add_mod n 10
        omega
    · have hlt : n / 10 < fuel := by omega
      obtain ⟨ds, e, -, hdig, hval⟩ := ih (n / 10) (digitChar (n % 10) :: acc) hlt
      refine ⟨ds ++ [digitChar (n % 10)], by simp [showNatAux, h0, e], by simp, ?_, ?_⟩
      · intro c hc
        rcases List.mem_append.1 hc with h1 | h1
        · exact hdig c h1
        · rw [List.mem_singleton.1 h1]
          exact hd.1
      · intro v
        simp only [List.foldl_append, List.foldl_cons, List.foldl_nil, hval, hd.2,
          List.length_append, List.length_singleton, pow_succ]
        have := Nat.div_add_mod n 10
        nlinarith [this]

theorem showNat_spec (n : Nat) :
    showNat n ≠ [] ∧ (∀ c ∈ showNat n, c.isDigit = true) ∧
      (showNat n).foldl (fun a c => 10 * a + (c.toNat - 48)) 0 = n := by
  obtain ⟨ds, e, hne, hdig, hval⟩ := showNatAux_spec (n + 1) n [] (Nat.lt_succ_self n)
  have e1 : showNat n = ds := by simpa [showNat] using e
  rw [e1]
  exact ⟨hne, hdig, by simpa using hval 0⟩

theorem showId_chars (x : Id) : ∀ c ∈ showId x, c.isDigit = true ∨ c = '-' := by
  intro c hc
  unfold showId at hc
  split at hc
  · rcases List.mem_cons.1 hc with e | e
    · exact Or.inr e
    · exact Or.inl ((showNat_spec _).2.1 c e)
  · exact Or.inl ((showNat_spec _).2.1 c hc)

theorem showId_ne_nil (x : Id) : showId x ≠ [] := by
  unfold showId
  split
  · simp
  · exact (showNat_spec _).1

theorem showId_no_space (x : Id) : ∀ c ∈ showId x, isSpace c = false ∧ c ≠ '\n' := by
  intro c hc
  rcases showId_chars x c hc with h | h
  · exact ⟨(isDigit_not_special h).1, (isDigit_not_special h).2.1⟩
  · subst h
    exact ⟨by decide, by decide⟩

theorem skipSpace_of_head {c : Char} (cs : Text) (h : isSpace c = false) :
    skipSpace (c :: cs) = c :: cs := by
  simp [skipSpace, h]

/-- Reading back what was written: the extraction applied to the numeral of an
id in range, followed by text that does not start with a digit, yields the id
and leaves that text. -/
theorem readId_showId (x : Id) (hx : InInt64 x) (rest : Text)
    (hrest : ∀ c, rest.head? = some c → c.isDigit = false) :
    readId (showId x ++ rest) = some (x, rest) := by
  obtain ⟨hne, hdig, hval⟩ := showNat_spec x.natAbs
  cases hds : showNat x.natAbs with
  | nil => exact absurd hds hne
  | cons d ds =>
    have hd : d.isDigit = true := hdig d (by simp [hds])
    have hrd := readDigits_digits (d :: ds) (by rw [← hds]; exact hdig) rest hrest 0
    rw [← hds, hval] at hrd
    rw [hds] at hrd
    obtain ⟨hsp, -, hm, hp, -⟩ := isDigit_not_special hd
    have hrd' : readDigits (d :: (ds ++ rest)) 0 = (x.natAbs, rest) := hrd
    by_cases hneg : x < 0
    · have hx' : -((x.natAbs : Nat) : Int) = x := by
        rw [Int.ofNat_natAbs_of_nonpos (le_of_lt hneg)]
        exact neg_neg x
      have hsk : skipSpace ('-' :: d :: (ds ++ rest)) = '-' :: d :: (ds ++ rest) :=
        skipSpace_of_head _ (by decide)
      simp only [showId, hneg, if_true, hds, List.cons_append, readId, hsk, true_or, hd, hrd',
        hx', hx]
    · have hx' : ((x.natAbs : Nat) : Int) = x :=
        Int.natAbs_of_nonneg (not_lt.1 hneg)
      have hsk : skipSpace (d :: (ds ++ rest)) = d :: (ds ++ rest) := skipSpace_of_head _ hsp
      simp only [showId, hneg, if_false, hds, List.cons_append, readId, hsk, hm, hp, or_self,
        hd, if_true, hrd', hx', hx]

theorem readId_space (cs : Text) : readId (' ' :: cs) = readId cs := by
  simp [readId, skipSpace, isSpace]

/-! ## Lines and tokens of the written text -/

theorem groupText_chars (g : List Id) :
    ∀ c ∈ groupText g, c ≠ '\n' := by
  induction g with
  | nil => simp [groupText]
  | cons x g ih =>
    intro c hc
    simp only [groupText, List.mem_append, List.mem_cons] at hc
    rcases hc with h | h | h
    · exact (showId_no_space x c h).2
    · subst h; decide
    · exact ih c h

theorem readIdsAux_groupText (g : List Id) (hg : ∀ x ∈ g, InInt64 x) (fuel : Nat)
    (hf : (groupText g).length ≤ fuel) : readIdsAux fuel (groupText g) = g := by
  induction g generalizing fuel with
  | nil =>
    cases fuel with
    | zero => rfl
    | succ f => simp [groupText, readIdsAux, readId, skipSpace]
  | cons x g ih =>
    have hx := hg x (by simp)
    have hlen : 0 < (showId x).length := List.length_pos.2 (showId_ne_nil x)
    have hread : readId (showId x ++ ' ' :: groupText g) = some (x, ' ' :: groupText g) :=
      readId_showId x hx _ (by
        intro c hc
        simp only [List.head?_cons, Option.some.injEq] at hc
        subst hc
        decide)
    simp only [groupText, List.length_append, List.length_cons] at hf
    cases fuel with
    | zero => omega
    | succ f =>
      cases f with
      | zero => omega
      | succ f2 =>
        have hrec := ih (fun y hy => hg y (by simp [hy])) (f2 + 1) (by omega)
        simp only [groupText, readIdsAux, hread, readId_space]
        simp only [readIdsAux] at hrec
        rw [hrec]

theorem readIds_groupText (g : List Id) (hg : ∀ x ∈ g, InInt64 x) :
    readIds (groupText g) = g :=
  readIdsAux_groupText g hg _ (Nat.le_refl _)

theorem getlinesAux_line (l : Text) (hl : ∀ c ∈ l, c ≠ '\n') (rest cur : Text) :
    getlinesAux (l ++ '\n' :: rest) cur = (cur.reverse ++ l) :: getlinesAux rest [] := by
  induction l generalizing cur with
  | nil => simp [getlinesAux]
  | cons c l ih =>
    have hc : c ≠ '\n' := hl c (by simp)
    rw [List.cons_append, getlinesAux, if_neg hc, ih (fun d hd => hl d (by simp [hd]))]
    simp

theorem getlines_matchesText (s : IdMatches) :
    getlines (matchesText s) = s.map groupText := by
  induction s with
  | nil => rfl
  | cons g s ih =>
    simp only [getlines] at ih
    simp only [getlines, matchesText, List.map_cons]
    rw [getlinesAux_line _ (groupText_chars g), ih]
    simp

theorem tokensAux_word (w : Text) (hw : ∀ c ∈ w, isSpace c = false) (rest cur : Text)
    (hne : cur.reverse ++ w ≠ []) :
    tokensAux (w ++ ' ' :: rest) cur = (cur.reverse ++ w) :: tokensAux rest [] := by
  induction w generalizing cur with
  | nil =>
    have hcur : cur ≠ [] := by simpa using hne
    have hsp : isSpace ' ' = true := by decide
    simp [tokensAux, hsp, hcur]
  | cons c w ih =>
    have hc : ¬ isSpace c = true := by simp [hw c (by simp)]
    rw [List.cons_append, tokensAux, if_neg hc,
      ih (fun d hd => hw d (by simp [hd])) (c :: cur) (by simp)]
    simp

theorem tokens_groupText (g : List Id) : tokens (groupText g) = g.map showId := by
  induction g with
  | nil => rfl
  | cons x g ih =>
    simp only [tokens] at ih
    simp only [tokens, groupText, List.map_cons]
    rw [tokensAux_word _ (fun c hc => (showId_no_space x c hc).1) _ _
      (by simpa using showId_ne_nil x), ih]
    simp

/-- Exporting and importing again: the text of a store whose ids are in range
is read back as the same store. -/
theorem import_matchesText (s : IdMatches) (hs : ∀ g ∈ s, ∀ x ∈ g, InInt64 x) :
    import_matches (some (matchesText s)) [] = (true, s) := by
  have h : (s.map groupText).map readIds = s := by
    rw [List.map_map]
    conv => rhs; rw [← List.map_id s]
    apply List.map_congr_left
    intro g hg
    exact readIds_groupText g (hs g hg)
  simp [import_matches, getlines_matchesText, h]

/-! ## The fuel of the extraction loop is enough -/

theorem skipSpace_length (cs : Text) : (skipSpace cs).length ≤ cs.length := by
  induction cs with
  | nil => simp [skipSpace]
  | cons c cs ih =>
    by_cases h : isSpace c = true
    · simp only [skipSpace, h, if_true, List.length_cons]
      omega
    · simp [skipSpace, h]

theorem readDigits_length (cs : Text) (v : Nat) : (readDigits cs v).2.length ≤ cs.length := by
  induction cs generalizing v with
  | nil => simp [readDigits]
  | cons c cs ih =>
    by_cases h : c.isDigit = true
    · simp only [readDigits, h, if_true, List.length_cons]
      exact Nat.le_succ_of_le (ih _)
    · simp [readDigits, h]

/-- A successful extraction consumes at least one character. -/
theorem readId_length {cs rest : Text} {x : Id} (h : readId cs = some (x, rest)) :
    rest.length < cs.length := by
  unfold readId at h
  have hsk := skipSpace_length cs
  cases hs : skipSpace cs with
  | nil => simp [hs] at h
  | cons c r =>
    rw [hs] at hsk
    simp only [hs] at h
    cases hb : (if c = '-' ∨ c = '+' then r else c :: r) with
    | nil => simp [hb] at h
    | cons d tl =>
      have hbl : (d :: tl).length ≤ (c :: r).length := by
        rw [← hb]
        split
        · simp
        · exact Nat.le_refl _
      simp only [hb] at h
      by_cases hd : d.isDigit = true
      · simp only [hd, if_true] at h
        have hrd : (readDigits (d :: tl) 0).2.length ≤ tl.length := by
          simp only [readDigits, hd, if_true]
          exact readDigits_length _ _
        simp only [List.length_cons] at hbl hsk
        split_ifs at h
        all_goals first
          | (cases h; done)
          | (simp only [Option.some.injEq, Prod.mk.injEq] at h
             rw [← h.2]
             omega)
      · simp [hd] at h

/-- The extraction loop gives the same ids for every fuel that is at least the
length of the line: the fuel never cuts the loop short. -/
theorem readIdsAux_fuel (f1 f2 : Nat) (cs : Text) (h1 : cs.length ≤ f1) (h2 : cs.length ≤ f2) :
    readIdsAux f1 cs = readIdsAux f2 cs := by
  induction f1 generalizing f2 cs with
  | zero =>
    have hcs : cs = [] := List.length_eq_zero.1 (Nat.le_zero.1 h1)
    subst hcs
    cases f2 with
    | zero => rfl
    | succ f => simp [readIdsAux, readId, skipSpace]
  | succ f1 ih =>
    cases f2 with
    | zero =>
      have hcs : cs = [] := List.length_eq_zero.1 (Nat.le_zero.1 h2)
      subst hcs
      simp [readIdsAux, readId, skipSpace]
    | succ f2 =>
      simp only [readIdsAux]
      cases hr : readId cs with
      | none => rfl
      | some p =>
        obtain ⟨x, rest⟩ := p
        have hl := readId_length hr
        simp only
        rw [ih f2 rest (by omega) (by omega)]

/-! ## Matches files -/

/-- The text `export_matches` has written when it returns success is the text
of the store. -/
theorem export_matches_written {fs : FileSystem} {filename text : Text} {s : IdMatches}
    (hexp : export_matches fs filename s = .returned true (some text)) :
    text = matchesText s := by
  unfold export_matches at hexp
  cases he : ensure_directory_exists_for_filename fs filename with
  | checkFailed => simp [he] at hexp
  | threw => simp [he] at hexp
  | returned b =>
    simp only [he] at hexp
    split at hexp
    · simp only [ExportOutcome.returned.injEq, Option.some.injEq, true_and] at hexp
      exact hexp.symm
    · simp at hexp

/-- C11, matches round trip: whenever `export_matches` writes the text of a
store (ids in the range of `Id`), `import_matches` on that text and an empty
store returns success with a store equal to the original, same groups in the
same order, so `areIdsMatching` agrees on every pair; for `[[1,2],[3,4,5]]`
the reloaded store matches 1 with 2, 3 with 5, and not 1 with 3. -/
theorem matches_round_trip (s : IdMatches) (hs : ∀ g ∈ s, ∀ x ∈ g, InInt64 x)
    (fs : FileSystem) (filename text : Text)
    (hexp : export_matches fs filename s = .returned true (some text)) :
    import_matches (some text) [] = (true, s) ∧
    (∀ x y, areIdsMatching (import_matches (some text) []).2 x y = areIdsMatching s x y) ∧
    areIdsMatching (import_matches (some (asString [[1, 2], [3, 4, 5]])) []).2 1 2 = true ∧
    areIdsMatching (import_matches (some (asString [[1, 2], [3, 4, 5]])) []).2 3 5 = true ∧
    areIdsMatching (import_matches (some (asString [[1, 2], [3, 4, 5]])) []).2 1 3 = false := by
  have ht : text = matchesText s := export_matches_written hexp
  subst ht
  have h := import_matchesText s hs
  refine ⟨h, ?_, by decide, by decide, by decide⟩
  intro x y
  rw [h]

theorem matches_round_trip_witness :
    import_matches (some "1 2 \n3 4 5 \n".toList) [] = (true, [[1, 2], [3, 4, 5]]) :=
  (matches_round_trip [[1, 2], [3, 4, 5]] (by decide)
    ⟨fun _ => some true, fun _ => some true, fun _ => true⟩
    "/tmp/segmatch/matches_database.csv".toList "1 2 \n3 4 5 \n".toList (by decide)).1

/-- C12, counterexample: `import_matches` succeeds on the text of the three
lines `1 2`, `1 3`, `5` and leaves a store in which id 1 is in two groups and
one group has a single member. -/
theorem import_matches_no_validation :
    import_matches (some "1 2\n1 3\n5\n".toList) [] = (true, [[1, 2], [1, 3], [5]]) ∧
    ¬ DisjointGroups [[1, 2], [1, 3], [5]] ∧
    ¬ (∀ g ∈ [[1, 2], [1, 3], [5]], 2 ≤ g.length) := by
  refine ⟨by decide, ?_, by decide⟩
  intro h
  exact h 0 1 [1, 2] [1, 3] rfl rfl (by decide) 1 (by decide) (by decide)

/-- C12, amended: `import_matches` checks nothing, on success into an empty
store the store is the sequence of groups read from the lines of the text,
whatever they are; the invariants (no id in two groups, no group with fewer
than two members) hold for it when the text was written by `export_matches`
from a store that satisfies them. -/
theorem import_matches_invariants (text : Text) :
    import_matches (some text) [] = (true, (getlines text).map readIds) ∧
    ∀ (s : IdMatches) (fs : FileSystem) (filename : Text),
      (∀ g ∈ s, ∀ x ∈ g, InInt64 x) → DisjointGroups s → (∀ g ∈ s, 2 ≤ g.length) →
      export_matches fs filename s = .returned true (some text) →
        DisjointGroups (import_matches (some text) []).2 ∧
        (∀ g ∈ (import_matches (some text) []).2, 2 ≤ g.length) := by
  refine ⟨by simp [import_matches], ?_⟩
  intro s fs filename hs h1 h2 hexp
  have ht : text = matchesText s := export_matches_written hexp
  subst ht
  have h := import_matchesText s hs
  rw [h]
  exact ⟨h1, h2⟩

theorem import_matches_invariants_witness :
    DisjointGroups (import_matches (some "1 2 \n3 4 5 \n".toList) []).2 ∧
    (∀ g ∈ (import_matches (some "1 2 \n3 4 5 \n".toList) []).2, 2 ≤ g.length) :=
  (import_matches_invariants "1 2 \n3 4 5 \n".toList).2 [[1, 2], [3, 4, 5]]
    ⟨fun _ => some true, fun _ => some true, fun _ => true⟩ "/tmp/segmatch/matches_database.csv".toList
    (by decide)
    (by
      intro i j gi gj hi hj hij x hxi hxj
      have hi2 : i < 2 := by
        by_contra hc
        have : ([[1, 2], [3, 4, 5]] : IdMatches)[i]? = none :=
          List.getElem?_eq_none (by simp; omega)
        rw [this] at hi
        cases hi
      have hj2 : j < 2 := by
        by_contra hc
        have : ([[1, 2], [3, 4, 5]] : IdMatches)[j]? = none :=
          List.getElem?_eq_none (by simp; omega)
        rw [this] at hj
        cases hj
      interval_cases i <;> interval_cases j <;> simp at hi hj hij <;> subst hi <;> subst hj <;>
        revert x <;> decide)
    (by decide) (by decide)

/-- C13, import into a store that is not empty: whatever the file (its content,
or that it cannot be opened), `import_matches` returns failure and the store is
as it was; the result does not depend on the file. -/
theorem import_matches_nonempty (file : Option Text) (s : IdMatches) (h : s ≠ []) :
    import_matches file s = (false, s) := by
  simp [import_matches, h]

theorem import_matches_nonempty_witness :
    import_matches (some "3 4 \n".toList) [[1, 2]] = (false, [[1, 2]]) :=
  import_matches_nonempty (some "3 4 \n".toList) [[1, 2]] (by decide)

/-- C14, counterexample: for the store `[[1,2]]`, `asString` returns `1 2 `
and a newline, with a space after the last id; the format of the specification
(ids separated by single spaces) is `1 2` and a newline. -/
theorem asString_trailing_space :
    asString [[1, 2]] = "1 2 \n".toList ∧ asStringSpec [[1, 2]] = "1 2\n".toList ∧
    asString [[1, 2]] ≠ asStringSpec [[1, 2]] := by
  decide

/-- C14, amended: `asString` returns, for the groups in store order, one
newline-terminated line per group in which every id of the group, in group
order, is written in decimal and followed by one space (the last id too); the
lines of the text are as many as the groups, line by line the
whitespace-separated tokens are the numerals of the ids of the group, and a
numeral is a minus sign for a negative id and the decimal digits of the
absolute value. -/
theorem asString_format (s : IdMatches) :
    asString s = (s.map (fun g => (g.map (fun x => showId x ++ [' '])).flatten ++ ['\n'])).flatten ∧
    getlines (asString s) = s.map (fun g => (g.map (fun x => showId x ++ [' '])).flatten) ∧
    (getlines (asString s)).length = s.length ∧
    (∀ g : List Id, tokens ((g.map (fun x => showId x ++ [' '])).flatten) = g.map showId) ∧
    (∀ x : Id, showId x = (if x < 0 then ['-'] else []) ++ showNat x.natAbs) ∧
    (∀ n : Nat, (∀ c ∈ showNat n, c.isDigit = true) ∧
      (showNat n).foldl (fun a c => 10 * a + (c.toNat - 48)) 0 = n) := by
  have hg : ∀ g : List Id, groupText g = (g.map (fun x => showId x ++ [' '])).flatten := by
    intro g
    induction g with
    | nil => rfl
    | cons x g ih => simp [groupText, ih]
  have hm : asString s =
      (s.map (fun g => (g.map (fun x => showId x ++ [' '])).flatten ++ ['\n'])).flatten := by
    unfold asString
    induction s with
    | nil => rfl
    | cons g s ih => simp [matchesText, ih, hg]
  have hl : getlines (asString s) =
      s.map (fun g => (g.map (fun x => showId x ++ [' '])).flatten) := by
    unfold asString
    rw [getlines_matchesText]
    exact List.map_congr_left (fun g _ => hg g)
  refine ⟨hm, hl, by rw [hl, List.length_map], ?_, ?_, ?_⟩
  · intro g
    rw [← hg]
    exact tokens_groupText g
  · intro x
    unfold showId
    split <;> simp
  · intro n
    exact ⟨(showNat_spec n).2.1, (showNat_spec n).2.2⟩

theorem asString_format_witness :
    getlines (asString [[1, 2], [3, 4, 5]]) = ["1 2 ".toList, "3 4 5 ".toList] ∧
    tokens "3 4 5 ".toList = ["3".toList, "4".toList, "5".toList] :=
  ⟨(asString_format [[1, 2], [3, 4, 5]]).2.1, (asString_format [[1, 2], [3, 4, 5]]).2.2.2.1 [3, 4, 5]⟩

/-! ## Segments files: the runs of a file -/

theorem runs_cons (l : SegmentLine) (rest : List SegmentLine) :
    runs (l :: rest) = prependRun l.line_id [l.point] (runs rest) := by
  cases h : runs rest with
  | nil => simp [runs, h, prependRun]
  | cons r more =>
    obtain ⟨j, ps⟩ := r
    simp [runs, h, prependRun]

theorem runs_head (l : SegmentLine) (rest : List SegmentLine) :
    ∃ ps more, runs (l :: rest) = (l.line_id, ps) :: more := by
  rw [runs_cons]
  cases runs rest with
  | nil => exact ⟨_, _, rfl⟩
  | cons r more =>
    obtain ⟨j, ps⟩ := r
    by_cases h : l.line_id = j
    · exact ⟨[l.point] ++ ps, more, by simp [prependRun, h]⟩
    · exact ⟨[l.point], (j, ps) :: more, by simp [prependRun, h]⟩

theorem prependRun_merge (i : Id) (P : List PointI) (p : PointI) (rs : List (Id × List PointI)) :
    prependRun i P (prependRun i [p] rs) = prependRun i (P ++ [p]) rs := by
  cases rs with
  | nil => simp [prependRun]
  | cons r more =>
    obtain ⟨j, ps⟩ := r
    by_cases h : i = j
    · simp [prependRun, h]
    · simp [prependRun, h]

theorem prependRun_ids (i : Id) (P : List PointI) (rs : List (Id × List PointI)) :
    ∀ r ∈ prependRun i P rs, r.1 = i ∨ ∃ q ∈ rs, q.1 = r.1 := by
  intro r hr
  cases rs with
  | nil =>
    simp only [prependRun, List.mem_singleton] at hr
    subst hr
    exact Or.inl rfl
  | cons q more =>
    obtain ⟨j, ps⟩ := q
    by_cases h : i = j
    · simp only [prependRun, h, if_true, List.mem_cons] at hr
      rcases hr with e | e
      · subst e
        exact Or.inl h.symm
      · exact Or.inr ⟨r, by simp [e], rfl⟩
    · simp only [prependRun, h, if_false, List.mem_cons] at hr
      rcases hr with e | e | e
      · subst e
        exact Or.inl rfl
      · subst e
        exact Or.inr ⟨(j, ps), by simp, rfl⟩
      · exact Or.inr ⟨r, by simp [e], rfl⟩

/-- The id of a run is the id of one of the lines. -/
theorem runs_ids (ls : List SegmentLine) : ∀ r ∈ runs ls, ∃ l ∈ ls, l.line_id = r.1 := by
  induction ls with
  | nil => intro r hr; simp [runs] at hr
  | cons l rest ih =>
    intro r hr
    rw [runs_cons] at hr
    rcases prependRun_ids _ _ _ r hr with e | ⟨q, hq, e⟩
    · exact ⟨l, by simp, e.symm⟩
    · obtain ⟨l2, hl2, e2⟩ := ih q hq
      exact ⟨l2, by simp [hl2], e2.trans e⟩

/-- When lines of the same id are contiguous, the runs have distinct ids. -/
theorem runs_nodup (ls : List SegmentLine)
    (h : contiguous (ls.map (fun l => l.line_id)) = true) :
    ((runs ls).map (fun r => r.1)).Nodup := by
  induction ls with
  | nil => simp [runs]
  | cons l rest ih =>
    simp only [List.map_cons, contiguous, Bool.and_eq_true] at h
    have ih1 := ih h.2
    rw [runs_cons]
    cases hrs : runs rest with
    | nil => simp [prependRun]
    | cons q more =>
      obtain ⟨j, qs⟩ := q
      rw [hrs] at ih1
      by_cases hj : l.line_id = j
      · simpa [prependRun, hj] using ih1
      · simp only [prependRun, hj, if_false, List.map_cons]
        refine List.nodup_cons.2 ⟨?_, by simpa using ih1⟩
        intro hmem
        cases rest with
        | nil => simp [runs] at hrs
        | cons l2 rest2 =>
          obtain ⟨ps2, more2, hhead⟩ := runs_head l2 rest2
          rw [hrs] at hhead
          simp only [List.cons.injEq, Prod.mk.injEq] at hhead
          have hl2 : l2.line_id ≠ l.line_id := by
            rw [← hhead.1.1]
            exact fun e => hj e.symm
          have hall := h.1
          simp only [List.map_cons, List.dropWhile_cons, beq_iff_eq, hl2, if_false,
            List.all_eq_true, bne_iff_ne, ne_eq] at hall
          have hmem2 : ∃ r ∈ runs (l2 :: rest2), r.1 = l.line_id := by
            rw [hrs]
            rcases List.mem_cons.1 hmem with e | e
            · exact ⟨(j, qs), by simp, e.symm⟩
            · obtain ⟨r, hr, hrid⟩ := List.mem_map.1 e
              exact ⟨r, by simp [hr], hrid⟩
          obtain ⟨r, hr, hrid⟩ := hmem2
          obtain ⟨l3, hl3, e3⟩ := runs_ids (l2 :: rest2) r hr
          have := hall l3.line_id (by
            rcases List.mem_cons.1 hl3 with e | e
            · subst e; simp
            · exact List.mem_cons_of_mem _ (List.mem_map.2 ⟨l3, e, rfl⟩))
          exact this (e3.trans hrid)

/-- The runs, laid end to end, are the lines of the file in order. -/
theorem runs_flatten (ls : List SegmentLine) :
    ((runs ls).map (fun r => r.2.map (fun p => SegmentLine.mk r.1 p))).flatten = ls := by
  induction ls with
  | nil => simp [runs]
  | cons l rest ih =>
    rw [runs_cons]
    cases hrs : runs rest with
    | nil =>
      rw [hrs] at ih
      simp only [List.map_nil, List.flatten_nil] at ih
      simp [prependRun, ← ih]
    | cons q more =>
      obtain ⟨j, qs⟩ := q
      rw [hrs] at ih
      by_cases h : l.line_id = j
      · simp only [prependRun, h, if_true]
        rw [← ih]
        simp [← h]
      · simp only [prependRun, h, if_false]
        rw [← ih]
        simp

theorem runs_nonempty (ls : List SegmentLine) : ∀ r ∈ runs ls, r.2 ≠ [] := by
  induction ls with
  | nil => intro r hr; simp [runs] at hr
  | cons l rest ih =>
    intro r hr
    rw [runs_cons] at hr
    cases hrs : runs rest with
    | nil =>
      rw [hrs] at hr
      simp only [prependRun, List.mem_singleton] at hr
      subst hr
      simp
    | cons q more =>
      obtain ⟨j, qs⟩ := q
      rw [hrs] at hr ih
      by_cases h : l.line_id = j
      · simp only [prependRun, h, if_true, List.mem_cons] at hr
        rcases hr with e | e
        · subst e; simp
        · exact ih r (by simp [e])
      · simp only [prependRun, h, if_false, List.mem_cons] at hr
        rcases hr with e | e | e
        · subst e; simp
        · subst e; exact ih _ (by simp)
        · exact ih r (by simp [e])

/-- Runs are maximal: neighbouring runs have different ids. -/
theorem runs_chain (ls : List SegmentLine) :
    List.Chain' (fun a b : Id × List PointI => a.1 ≠ b.1) (runs ls) := by
  induction ls with
  | nil => simp [runs]
  | cons l rest ih =>
    rw [runs_cons]
    cases hrs : runs rest with
    | nil => simp [prependRun]
    | cons q more =>
      obtain ⟨j, qs⟩ := q
      rw [hrs] at ih
      by_cases h : l.line_id = j
      · simp only [prependRun, h, if_true]
        cases more with
        | nil => simp
        | cons m more2 =>
          rw [List.chain'_cons] at ih ⊢
          exact ih
      · simp only [prependRun, h, if_false]
        rw [List.chain'_cons]
        exact ⟨h, ih⟩

/-! ## Segments files: storing the runs -/

theorem findSegmentFrom_none (id : Id) (cloud : List Segment) (k : Nat) :
    findSegmentFrom id cloud k = none ↔ ∀ seg ∈ cloud, seg.segment_id ≠ id := by
  induction cloud generalizing k with
  | nil => simp [findSegmentFrom]
  | cons seg rest ih =>
    by_cases h : seg.segment_id = id
    · simp [findSegmentFrom, h]
    · simp [findSegmentFrom, h, ih]

theorem findSegmentFrom_first (id : Id) (A : List Segment) (seg : Segment) (B : List Segment)
    (hA : ∀ a ∈ A, a.segment_id ≠ id) (hseg : seg.segment_id = id) (k : Nat) :
    findSegmentFrom id (A ++ seg :: B) k = some (k + A.length, seg) := by
  induction A generalizing k with
  | nil => simp [findSegmentFrom, hseg]
  | cons a A ih =>
    have ha : ¬ a.segment_id = id := hA a (by simp)
    have hk : k + 1 + A.length = k + (A.length + 1) := by omega
    rw [List.cons_append, findSegmentFrom, if_neg ha, ih (fun b hb => hA b (by simp [hb])) (k + 1),
      hk, List.length_cons]

theorem storeSegment_new (cloud : SegmentedCloud) (count : Nat) (segment : Segment)
    (h : ∀ seg ∈ cloud, seg.segment_id ≠ segment.segment_id) :
    storeSegment cloud count segment = (cloud ++ [segment], count + 1) := by
  unfold storeSegment
  rw [show findValidSegmentPtrById cloud segment.segment_id = none from
    (findSegmentFrom_none _ _ 0).2 h]
  rfl

theorem storeRuns_append (rs1 rs2 : List (Id × List PointI)) (cloud : SegmentedCloud)
    (count : Nat) :
    storeRuns (rs1 ++ rs2) cloud count =
      storeRuns rs2 (storeRuns rs1 cloud count).1 (storeRuns rs1 cloud count).2 := by
  induction rs1 generalizing cloud count with
  | nil => rfl
  | cons r rs1 ih =>
    rw [List.cons_append]
    simp only [storeRuns]
    exact ih _ _

/-- Runs with distinct ids, none of them in the collection, are all added, in
order, and all counted. -/
theorem storeRuns_fresh (rs : List (Id × List PointI)) (cloud : SegmentedCloud) (count : Nat)
    (hnew : ∀ r ∈ rs, ∀ seg ∈ cloud, seg.segment_id ≠ r.1)
    (hnd : (rs.map (fun r => r.1)).Nodup) :
    storeRuns rs cloud count = (cloud ++ rs.map runSegment, count + rs.length) := by
  induction rs generalizing cloud count with
  | nil => simp [storeRuns]
  | cons r rs ih =>
    rw [List.map_cons, List.nodup_cons] at hnd
    have h1 : storeSegment cloud count (runSegment r) = (cloud ++ [runSegment r], count + 1) :=
      storeSegment_new _ _ _ (hnew r (by simp))
    simp only [storeRuns, h1]
    rw [ih _ _ ?_ hnd.2]
    · simp only [List.map_cons, List.append_assoc, List.singleton_append, List.length_cons,
        Prod.mk.injEq, true_and]
      omega
    · intro q hq seg hseg
      rcases List.mem_append.1 hseg with e | e
      · exact hnew q (by simp [hq]) seg e
      · rw [List.mem_singleton.1 e]
        intro hid
        exact hnd.1 (List.mem_map.2 ⟨q, hq, hid.symm⟩)

/-- The loop of `import_segments`, started with a pending segment that has
points: it stores all runs but the last, which is the pending segment at the
end of the loop. -/
theorem import_segments_loop_runs (ls : List SegmentLine) (i : Id) (P : List PointI)
    (hP : P ≠ []) (cloud : SegmentedCloud) (count : Nat) :
    ∃ init j Q, prependRun i P (runs ls) = init ++ [(j, Q)] ∧ Q ≠ [] ∧
      import_segments_loop ls ⟨i, P, []⟩ cloud count =
        (⟨j, Q, []⟩, (storeRuns init cloud count).1, (storeRuns init cloud count).2) := by
  induction ls generalizing i P cloud count with
  | nil => exact ⟨[], i, P, by simp [runs, prependRun], hP, by simp [import_segments_loop, storeRuns]⟩
  | cons l rest ih =>
    by_cases h : l.line_id = i
    · obtain ⟨init, j, Q, e, hQ, hloop⟩ := ih i (P ++ [l.point]) (by simp) cloud count
      refine ⟨init, j, Q, ?_, hQ, ?_⟩
      · rw [runs_cons, h, prependRun_merge]
        exact e
      · have hpush : pushLine ⟨i, P, []⟩ l = ⟨i, P ++ [l.point], []⟩ := by
          simp [pushLine, h]
        simp only [import_segments_loop, h, ne_eq, not_true_eq_false, false_and, if_false]
        rw [hpush]
        exact hloop
    · obtain ⟨init, j, Q, e, hQ, hloop⟩ := ih l.line_id [l.point] (by simp)
        (storeSegment cloud count ⟨i, P, []⟩).1 (storeSegment cloud count ⟨i, P, []⟩).2
      have hempty : Segment.empty ⟨i, P, []⟩ = false := by
        cases P with
        | nil => exact absurd rfl hP
        | cons p P => rfl
      have hpush : pushLine Segment.fresh l = ⟨l.line_id, [l.point], []⟩ := by
        simp [pushLine, Segment.fresh]
      refine ⟨(i, P) :: init, j, Q, ?_, hQ, ?_⟩
      · rw [← runs_cons] at e
        obtain ⟨ps, more, hhead⟩ := runs_head l rest
        have hi : ¬ i = l.line_id := fun e1 => h e1.symm
        rw [hhead] at e ⊢
        simp only [prependRun, hi, if_false, List.cons_append, e]
      · have hcond : l.line_id ≠ i ∧ Segment.empty ⟨i, P, []⟩ = false := ⟨h, hempty⟩
        rw [import_segments_loop, if_pos hcond, hpush, hloop]
        rfl

/-- The whole of `import_segments` on a file that could be opened: the runs of
the file are stored in order, except that a last run with the sentinel id is
dropped. -/
theorem import_segments_stored (ls : List SegmentLine) (cloud : SegmentedCloud) :
    ∃ rs, (rs = runs ls ∨ ∃ Q, runs ls = rs ++ [(kNoId, Q)]) ∧
      import_segments (some ls) cloud =
        (true, (storeRuns rs cloud 0).1, (storeRuns rs cloud 0).2) := by
  cases ls with
  | nil =>
    refine ⟨[], Or.inl rfl, ?_⟩
    simp [import_segments, import_segments_loop, Segment.hasValidId, Segment.fresh, storeRuns]
  | cons l rest =>
    obtain ⟨init, j, Q, e, -, hloop⟩ := import_segments_loop_runs rest l.line_id [l.point]
      (by simp) cloud 0
    rw [← runs_cons] at e
    have hpush : pushLine Segment.fresh l = ⟨l.line_id, [l.point], []⟩ := by
      simp [pushLine, Segment.fresh]
    have hfirst : import_segments_loop (l :: rest) Segment.fresh cloud 0 =
        (⟨j, Q, []⟩, (storeRuns init cloud 0).1, (storeRuns init cloud 0).2) := by
      have hcond : ¬ (l.line_id ≠ Segment.fresh.segment_id ∧ Segment.empty Segment.fresh = false) := by
        simp [Segment.empty, Segment.fresh]
      rw [import_segments_loop, if_neg hcond, hpush, hloop]
    by_cases hj : j = kNoId
    · refine ⟨init, Or.inr ⟨Q, by rw [e, hj]⟩, ?_⟩
      simp [import_segments, hfirst, Segment.hasValidId, hj]
    · refine ⟨runs (l :: rest), Or.inl rfl, ?_⟩
      rw [e, storeRuns_append]
      simp [import_segments, hfirst, Segment.hasValidId, hj, storeRuns, runSegment]

/-- C15, segment import boundary: for lines with ids other than the sentinel,
lines of the same id contiguous, `import_segments` into an empty collection
returns success and leaves one segment per maximal run of equal ids, in file
order, each with the points of its run in line order, the last run included,
and counts them all. The runs are what the words say: laid end to end they are
the lines, none is empty, neighbouring runs differ in id. -/
theorem import_segments_boundary (ls : List SegmentLine)
    (hvalid : ∀ l ∈ ls, l.line_id ≠ kNoId)
    (hcontig : contiguous (ls.map (fun l => l.line_id)) = true) :
    import_segments (some ls) [] = (true, (runs ls).map runSegment, (runs ls).length) ∧
    ((runs ls).map (fun r => r.2.map (fun p => SegmentLine.mk r.1 p))).flatten = ls ∧
    (∀ r ∈ runs ls, r.2 ≠ []) ∧
    List.Chain' (fun a b : Id × List PointI => a.1 ≠ b.1) (runs ls) := by
  refine ⟨?_, runs_flatten ls, runs_nonempty ls, runs_chain ls⟩
  obtain ⟨rs, hrs, himp⟩ := import_segments_stored ls []
  have hrs2 : rs = runs ls := by
    rcases hrs with e | ⟨Q, e⟩
    · exact e
    · obtain ⟨l, hl, hid⟩ := runs_ids ls (kNoId, Q) (by rw [e]; simp)
      exact absurd hid (hvalid l hl)
  subst hrs2
  rw [himp, storeRuns_fresh (runs ls) [] 0 (by simp) (runs_nodup ls hcontig)]
  simp

theorem import_segments_boundary_witness :
    import_segments (some [⟨7, ⟨0, 0, 0⟩⟩, ⟨7, ⟨1, 0, 0⟩⟩, ⟨9, ⟨2, 2, 2⟩⟩]) [] =
      (true, [⟨7, [⟨0, 0, 0⟩, ⟨1, 0, 0⟩], []⟩, ⟨9, [⟨2, 2, 2⟩], []⟩], 2) :=
  (import_segments_boundary [⟨7, ⟨0, 0, 0⟩⟩, ⟨7, ⟨1, 0, 0⟩⟩, ⟨9, ⟨2, 2, 2⟩⟩]
    (by decide) (by decide)).1

theorem set_at_length {α : Type} (A : List α) (x y : α) (B : List α) :
    (A ++ x :: B).set A.length y = A ++ y :: B := by
  induction A with
  | nil => rfl
  | cons a A ih => simp

theorem findValidSegmentPtrById_none (cloud : SegmentedCloud) (id : Id) :
    findValidSegmentPtrById cloud id = none ↔ ∀ seg ∈ cloud, seg.segment_id ≠ id :=
  findSegmentFrom_none id cloud 0

theorem findValidSegmentPtrById_first (A : List Segment) (seg : Segment) (B : List Segment)
    (hA : ∀ a ∈ A, a.segment_id ≠ seg.segment_id) :
    findValidSegmentPtrById (A ++ seg :: B) seg.segment_id = some (A.length, seg) := by
  have h := findSegmentFrom_first seg.segment_id A seg B hA rfl 0
  simpa [findValidSegmentPtrById] using h

/-- A line whose id is not in the collection is passed over: the loop goes on
with the same collection and the same count. -/
theorem import_features_loop_unknown (policy : String) (id : Id) (N : List Feature)
    (rest : List FeatureLine) (cloud : SegmentedCloud) (count : Nat)
    (h : ∀ seg ∈ cloud, seg.segment_id ≠ id) :
    import_features_loop policy (some (id, N) :: rest) cloud count =
      import_features_loop policy rest cloud count := by
  rw [import_features_loop, (findValidSegmentPtrById_none cloud id).2 h]

/-- Under the policies `concatenate` and `replace` the loop returns success on
every input whose lines all start with an id. -/
theorem import_features_loop_returns (policy : String)
    (hp : policy = "concatenate" ∨ policy = "replace") (lines : List (Id × List Feature))
    (cloud : SegmentedCloud) (count : Nat) :
    ∃ cloud1 count1,
      import_features_loop policy (lines.map some) cloud count = .returned true cloud1 count1 := by
  induction lines generalizing cloud count with
  | nil => exact ⟨cloud, count, rfl⟩
  | cons l lines ih =>
    obtain ⟨id, N⟩ := l
    rw [List.map_cons, import_features_loop]
    cases hf : findValidSegmentPtrById cloud id with
    | none => exact ih cloud count
    | some p =>
      obtain ⟨k, segment⟩ := p
      simp only
      by_cases hfe : segment.features ≠ []
      · rw [if_pos hfe]
        rcases hp with e | e
        · rw [if_pos e]
          exact ih _ _
        · have hne : ¬ policy = "concatenate" := by rw [e]; decide
          rw [if_neg hne, if_pos e]
          exact ih _ _
      · rw [if_neg hfe]
        exact ih _ _

/-- C17, feature merge policies: when a line of a features file carries the
pairs `N` for the id of a segment of the collection (the first segment of that
id), then, if the segment holds features `F`, not empty, the policy
`concatenate` leaves it with `F` followed by `N`, the policy `replace` leaves
it with `N`, both count the line and go on with the next lines, and the policy
`abort` terminates the import at that line, whatever follows; if the segment
holds no features it gets `N` under every policy. Nothing else in the
collection changes. -/
theorem import_features_policies (A B : List Segment) (seg : Segment) (N : List Feature)
    (rest : List FeatureLine) (count : Nat)
    (hA : ∀ a ∈ A, a.segment_id ≠ seg.segment_id) :
    (seg.features ≠ [] →
      import_features_loop "concatenate" (some (seg.segment_id, N) :: rest) (A ++ seg :: B) count
        = import_features_loop "concatenate" rest
            (A ++ { seg with features := seg.features ++ N } :: B) (count + 1) ∧
      import_features_loop "replace" (some (seg.segment_id, N) :: rest) (A ++ seg :: B) count
        = import_features_loop "replace" rest
            (A ++ { seg with features := N } :: B) (count + 1) ∧
      import_features_loop "abort" (some (seg.segment_id, N) :: rest) (A ++ seg :: B) count
        = .fatal (A ++ seg :: B) ∧
      import_features (some [some (seg.segment_id, N)]) (A ++ seg :: B) "concatenate"
        = .returned true (A ++ { seg with features := seg.features ++ N } :: B) 1 ∧
      import_features (some [some (seg.segment_id, N)]) (A ++ seg :: B) "replace"
        = .returned true (A ++ { seg with features := N } :: B) 1 ∧
      import_features (some (some (seg.segment_id, N) :: rest)) (A ++ seg :: B) "abort"
        = .fatal (A ++ seg :: B)) ∧
    (seg.features = [] → ∀ policy : String,
      import_features_loop policy (some (seg.segment_id, N) :: rest) (A ++ seg :: B) count
        = import_features_loop policy rest (A ++ { seg with features := N } :: B) (count + 1) ∧
      import_features (some [some (seg.segment_id, N)]) (A ++ seg :: B) policy
        = .returned true (A ++ { seg with features := N } :: B) 1) := by
  have hfind := findValidSegmentPtrById_first A seg B hA
  have hrc : ¬ ("replace" = "concatenate") := by decide
  have hac : ¬ ("abort" = "concatenate") := by decide
  have har : ¬ ("abort" = "replace") := by decide
  have hcat : ∀ (r : List FeatureLine) (n : Nat), seg.features ≠ [] →
      import_features_loop "concatenate" (some (seg.segment_id, N) :: r) (A ++ seg :: B) n
        = import_features_loop "concatenate" r
            (A ++ { seg with features := seg.features ++ N } :: B) (n + 1) := by
    intro r n hF
    rw [import_features_loop, hfind]
    simp only [hF, ne_eq, not_false_eq_true, if_true, set_at_length]
  have hrep : ∀ (r : List FeatureLine) (n : Nat), seg.features ≠ [] →
      import_features_loop "replace" (some (seg.segment_id, N) :: r) (A ++ seg :: B) n
        = import_features_loop "replace" r (A ++ { seg with features := N } :: B) (n + 1) := by
    intro r n hF
    rw [import_features_loop, hfind]
    simp only [hF, ne_eq, not_false_eq_true, if_true, hrc, if_false, set_at_length]
  have hab : ∀ (r : List FeatureLine) (n : Nat), seg.features ≠ [] →
      import_features_loop "abort" (some (seg.segment_id, N) :: r) (A ++ seg :: B) n
        = .fatal (A ++ seg :: B) := by
    intro r n hF
    rw [import_features_loop, hfind]
    simp only [hF, ne_eq, not_false_eq_true, if_true, hac, har, if_false]
  have hemp : ∀ (policy : String) (r : List FeatureLine) (n : Nat), seg.features = [] →
      import_features_loop policy (some (seg.segment_id, N) :: r) (A ++ seg :: B) n
        = import_features_loop policy r (A ++ { seg with features := N } :: B) (n + 1) := by
    intro policy r n hF
    rw [import_features_loop, hfind]
    simp only [hF, ne_eq, not_true_eq_false, if_false, set_at_length]
  refine ⟨fun hF => ⟨hcat rest count hF, hrep rest count hF, hab rest count hF, ?_, ?_, ?_⟩,
    fun hF policy => ⟨hemp policy rest count hF, ?_⟩⟩
  · show import_features_loop "concatenate" _ _ 0 = _
    rw [hcat [] 0 hF, import_features_loop]
  · show import_features_loop "replace" _ _ 0 = _
    rw [hrep [] 0 hF, import_features_loop]
  · show import_features_loop "abort" _ _ 0 = _
    rw [hab rest 0 hF]
  · show import_features_loop policy _ _ 0 = _
    rw [hemp policy [] 0 hF, import_features_loop]

theorem import_features_policies_witness :
    import_features (some [some (7, [⟨"b", 2.0⟩])]) [⟨7, [⟨0, 0, 0⟩], [⟨"a", 1.0⟩]⟩] "concatenate"
      = .returned true [⟨7, [⟨0, 0, 0⟩], [⟨"a", 1.0⟩, ⟨"b", 2.0⟩]⟩] 1 ∧
    import_features (some [some (7, [⟨"b", 2.0⟩])]) [⟨7, [⟨0, 0, 0⟩], [⟨"a", 1.0⟩]⟩] "replace"
      = .returned true [⟨7, [⟨0, 0, 0⟩], [⟨"b", 2.0⟩]⟩] 1 ∧
    import_features (some [some (7, [⟨"b", 2.0⟩])]) [⟨7, [⟨0, 0, 0⟩], [⟨"a", 1.0⟩]⟩] "abort"
      = .fatal [⟨7, [⟨0, 0, 0⟩], [⟨"a", 1.0⟩]⟩] :=
  ⟨((import_features_policies [] [] ⟨7, [⟨0, 0, 0⟩], [⟨"a", 1.0⟩]⟩ [⟨"b", 2.0⟩] [] 0
      (by simp)).1 (by simp)).2.2.2.1,
    ((import_features_policies [] [] ⟨7, [⟨0, 0, 0⟩], [⟨"a", 1.0⟩]⟩ [⟨"b", 2.0⟩] [] 0
      (by simp)).1 (by simp)).2.2.2.2.1,
    ((import_features_policies [] [] ⟨7, [⟨0, 0, 0⟩], [⟨"a", 1.0⟩]⟩ [⟨"b", 2.0⟩] [] 0
      (by simp)).1 (by simp)).2.2.2.2.2⟩

/-- C18, counterexample: every line starts with an id, the id 99 of the first
line is not in the collection, and under the policy `abort` the call does not
return success: the second line meets a segment that has features and
`LOG(FATAL)` terminates the process. -/
theorem import_features_unknown_then_abort :
    import_features (some [some (99, []), some (7, [⟨"b", 2.0⟩])])
        [⟨7, [⟨0, 0, 0⟩], [⟨"a", 1.0⟩]⟩] "abort"
      = .fatal [⟨7, [⟨0, 0, 0⟩], [⟨"a", 1.0⟩]⟩] ∧
    ¬ ∃ cloud1 count1,
      import_features (some [some (99, []), some (7, [⟨"b", 2.0⟩])])
        [⟨7, [⟨0, 0, 0⟩], [⟨"a", 1.0⟩]⟩] "abort" = .returned true cloud1 count1 := by
  have h : import_features (some [some (99, []), some (7, [⟨"b", 2.0⟩])])
        [⟨7, [⟨0, 0, 0⟩], [⟨"a", 1.0⟩]⟩] "abort"
      = .fatal [⟨7, [⟨0, 0, 0⟩], [⟨"a", 1.0⟩]⟩] := by
    simp [import_features, import_features_loop, findValidSegmentPtrById, findSegmentFrom]
  refine ⟨h, ?_⟩
  rintro ⟨c, n, hc⟩
  rw [h] at hc
  cases hc

/-- C18, amended: a line of a features file whose id is not in the collection
changes no segment and is not counted, and the lines after it are processed as
if it were not there; on an input whose lines all start with an id the import
returns success under the policies `concatenate` and `replace` (under another
policy a line for a segment that holds features terminates the import). -/
theorem import_features_unknown_id (policy : String) (id : Id) (N : List Feature)
    (rest : List FeatureLine) (cloud : SegmentedCloud) (count : Nat)
    (h : ∀ seg ∈ cloud, seg.segment_id ≠ id) :
    import_features_loop policy (some (id, N) :: rest) cloud count
      = import_features_loop policy rest cloud count ∧
    import_features (some (some (id, N) :: rest)) cloud policy
      = import_features (some rest) cloud policy ∧
    (policy = "concatenate" ∨ policy = "replace" →
      ∀ lines : List (Id × List Feature), ∃ cloud1 count1,
        import_features (some (lines.map some)) cloud policy = .returned true cloud1 count1) := by
  refine ⟨import_features_loop_unknown policy id N rest cloud count h, ?_, ?_⟩
  · simp only [import_features]
    exact import_features_loop_unknown policy id N rest cloud 0 h
  · intro hp lines
    simp only [import_features]
    exact import_features_loop_returns policy hp lines cloud 0

theorem import_features_unknown_id_witness :
    import_features (some [some (99, [⟨"b", 2.0⟩]), some (7, [⟨"c", 3.0⟩])])
        [⟨7, [⟨0, 0, 0⟩], [⟨"a", 1.0⟩]⟩] "replace"
      = import_features (some [some (7, [⟨"c", 3.0⟩])]) [⟨7, [⟨0, 0, 0⟩], [⟨"a", 1.0⟩]⟩] "replace" :=
  (import_features_unknown_id "replace" 99 [⟨"b", 2.0⟩] [some (7, [⟨"c", 3.0⟩])]
    [⟨7, [⟨0, 0, 0⟩], [⟨"a", 1.0⟩]⟩] 0 (by simp)).2.1

/-! ## Exports -/

/-- When `ensure_directory_exists_for_filename` returns false: the file name
has no `/`, or its directory part does not begin with `/`, or the directory
is reported absent and `create_directory` returns without creating it. -/
theorem ensure_directory_false_iff (fs : FileSystem) (filename : Text) :
    ensure_directory_exists_for_filename fs filename = .returned false ↔
      (rfind '/' filename = none ∨
        ∃ pos, rfind '/' filename = some pos ∧ filename.take pos ≠ [] ∧
          ((filename.take pos).head? ≠ some '/' ∨
            (fs.path_exists (filename.take pos) = some false ∧
              fs.create_directory (filename.take pos) = some false))) := by
  unfold ensure_directory_exists_for_filename
  cases hr : rfind '/' filename with
  | none => simp
  | some pos =>
    simp only [false_or, Option.some.injEq, exists_eq_left']
    unfold ensure_directory_exists
    by_cases h0 : (filename.take pos).length = 0
    · have : filename.take pos = [] := List.length_eq_zero.1 h0
      simp [h0, this]
    · have hne : filename.take pos ≠ [] := fun e => h0 (by rw [e]; rfl)
      have hne2 : ¬ pos = 0 ∧ ¬ filename = [] := by simpa using hne
      by_cases hh : (filename.take pos).head? = some '/'
      · rcases he : fs.path_exists (filename.take pos) with _ | _ | _
        · simp [h0, hne2, hh, he]
        · rcases hc : fs.create_directory (filename.take pos) with _ | _ | _
          · simp [h0, hne2, hh, he, hc]
          · simp [h0, hne2, hh, he, hc]
          · simp [h0, hne2, hh, he, hc]
        · simp [h0, hne2, hh, he]
      · simp [h0, hne2, hh]

/-- When `ensure_directory_exists_for_filename` is left by an exception: the
directory part begins with `/` and `exists` throws, or the directory is
reported absent and `create_directory` throws because it cannot create it. -/
theorem ensure_directory_threw_iff (fs : FileSystem) (filename : Text) :
    ensure_directory_exists_for_filename fs filename = .threw ↔
      ∃ pos, rfind '/' filename = some pos ∧ filename.take pos ≠ [] ∧
        (filename.take pos).head? = some '/' ∧
          (fs.path_exists (filename.take pos) = none ∨
            (fs.path_exists (filename.take pos) = some false ∧
              fs.create_directory (filename.take pos) = none)) := by
  unfold ensure_directory_exists_for_filename
  cases hr : rfind '/' filename with
  | none => simp
  | some pos =>
    simp only [Option.some.injEq, exists_eq_left']
    unfold ensure_directory_exists
    by_cases h0 : (filename.take pos).length = 0
    · have : filename.take pos = [] := List.length_eq_zero.1 h0
      simp [h0, this]
    · have hne : filename.take pos ≠ [] := fun e => h0 (by rw [e]; rfl)
      have hne2 : ¬ pos = 0 ∧ ¬ filename = [] := by simpa using hne
      by_cases hh : (filename.take pos).head? = some '/'
      · rcases he : fs.path_exists (filename.take pos) with _ | _ | _
        · simp [h0, hne2, hh, he]
        · rcases hc : fs.create_directory (filename.take pos) with _ | _ | _
          · simp [h0, hne2, hh, he, hc]
          · simp [h0, hne2, hh, he, hc]
          · simp [h0, hne2, hh, he, hc]
        · simp [h0, hne2, hh, he]
      · simp [h0, hne2, hh]

/-- C19, counterexample: for the file name `matches_database.csv`, without
`/`, `ensure_directory_exists_for_filename` returns false, and with a file
system in which the file can be opened the three exports return success. -/
theorem export_succeeds_without_directory :
    ensure_directory_exists_for_filename
      ⟨fun _ => some false, fun _ => some true, fun _ => true⟩
      "matches_database.csv".toList = .returned false ∧
    export_segments ⟨fun _ => some false, fun _ => some true, fun _ => true⟩
      "matches_database.csv".toList [⟨7, [⟨0, 0, 0⟩], []⟩] = .returned true ∧
    export_features ⟨fun _ => some false, fun _ => some true, fun _ => true⟩
      "matches_database.csv".toList [⟨7, [⟨0, 0, 0⟩], []⟩] = .returned true ∧
    export_matches ⟨fun _ => some false, fun _ => some true, fun _ => true⟩
      "matches_database.csv".toList [[1, 2]] = .returned true (some "1 2 \n".toList) := by
  decide

/-- C19, amended: no export looks at the flag that
`ensure_directory_exists_for_filename` returns. Whenever that call returns,
true or false, each of `export_segments`, `export_features`, `export_matches`
returns success exactly when the output file could be opened, and
`export_matches` then has written the text of the store; so for a file name
without `/`, or with a directory part that does not begin with `/`, the
export succeeds when the file can be opened. When the call does not return,
neither does the export: the `CHECK` stops the process when the directory
part of the file name is the empty string, and when the directory is absent
and cannot be created the `filesystem_error` thrown by `create_directory`
leaves the export before the file is opened. -/
theorem export_result (fs : FileSystem) (filename : Text) (cloud : SegmentedCloud)
    (matches_ : IdMatches) :
    (∀ flag, ensure_directory_exists_for_filename fs filename = .returned flag →
      export_segments fs filename cloud = .returned (fs.is_open filename) ∧
      export_features fs filename cloud = .returned (fs.is_open filename) ∧
      export_matches fs filename matches_ =
        .returned (fs.is_open filename)
          (if fs.is_open filename then some (matchesText matches_) else none)) ∧
    (ensure_directory_exists_for_filename fs filename = .checkFailed →
      export_segments fs filename cloud = .checkFailed ∧
      export_features fs filename cloud = .checkFailed ∧
      export_matches fs filename matches_ = .checkFailed) ∧
    (ensure_directory_exists_for_filename fs filename = .threw →
      export_segments fs filename cloud = .threw ∧
      export_features fs filename cloud = .threw ∧
      export_matches fs filename matches_ = .threw) ∧
    (rfind '/' filename = none ∨
        (∃ pos, rfind '/' filename = some pos ∧ filename.take pos ≠ [] ∧
          (filename.take pos).head? ≠ some '/') →
      ensure_directory_exists_for_filename fs filename = .returned false ∧
      export_segments fs filename cloud = .returned (fs.is_open filename) ∧
      export_features fs filename cloud = .returned (fs.is_open filename) ∧
      export_matches fs filename matches_ =
        .returned (fs.is_open filename)
          (if fs.is_open filename then some (matchesText matches_) else none)) ∧
    (∀ pos, rfind '/' filename = some pos → filename.take pos ≠ [] →
      (filename.take pos).head? = some '/' →
      fs.path_exists (filename.take pos) = some false →
      fs.create_directory (filename.take pos) = none →
      export_segments fs filename cloud = .threw ∧
      export_features fs filename cloud = .threw ∧
      export_matches fs filename matches_ = .threw) := by
  have hret : ∀ flag, ensure_directory_exists_for_filename fs filename = .returned flag →
      export_segments fs filename cloud = .returned (fs.is_open filename) ∧
      export_features fs filename cloud = .returned (fs.is_open filename) ∧
      export_matches fs filename matches_ =
        .returned (fs.is_open filename)
          (if fs.is_open filename then some (matchesText matches_) else none) := by
    intro flag he
    by_cases ho : fs.is_open filename = true
    · simp [export_segments, export_features, export_matches, he, ho]
    · simp [export_segments, export_features, export_matches, he, ho]
  have hthrew : ensure_directory_exists_for_filename fs filename = .threw →
      export_segments fs filename cloud = .threw ∧
      export_features fs filename cloud = .threw ∧
      export_matches fs filename matches_ = .threw := by
    intro h
    simp [export_segments, export_features, export_matches, h]
  refine ⟨hret, ?_, hthrew, ?_, ?_⟩
  · intro h
    simp [export_segments, export_features, export_matches, h]
  · intro h
    have he : ensure_directory_exists_for_filename fs filename = .returned false := by
      rw [ensure_directory_false_iff]
      rcases h with h | ⟨pos, h1, h2, h3⟩
      · exact Or.inl h
      · exact Or.inr ⟨pos, h1, h2, Or.inl h3⟩
    exact ⟨he, hret false he⟩
  · intro pos h1 h2 h3 h4 h5
    exact hthrew ((ensure_directory_threw_iff fs filename).2
      ⟨pos, h1, h2, h3, Or.inr ⟨h4, h5⟩⟩)

theorem export_result_witness :
    (export_segments ⟨fun _ => some true, fun _ => some false, fun _ => false⟩
      "/tmp/segmatch/segments_database.csv".toList [⟨7, [⟨0, 0, 0⟩], []⟩] = .returned false ∧
    export_features ⟨fun _ => some true, fun _ => some false, fun _ => false⟩
      "/tmp/segmatch/segments_database.csv".toList [⟨7, [⟨0, 0, 0⟩], []⟩] = .returned false ∧
    export_matches ⟨fun _ => some true, fun _ => some false, fun _ => false⟩
      "/tmp/segmatch/segments_database.csv".toList [[1, 2]] = .returned false none) ∧
    (export_segments ⟨fun _ => some false, fun _ => none, fun _ => false⟩
      "/tmp/segmatch/segments_database.csv".toList [⟨7, [⟨0, 0, 0⟩], []⟩] = .threw ∧
    export_features ⟨fun _ => some false, fun _ => none, fun _ => false⟩
      "/tmp/segmatch/segments_database.csv".toList [⟨7, [⟨0, 0, 0⟩], []⟩] = .threw ∧
    export_matches ⟨fun _ => some false, fun _ => none, fun _ => false⟩
      "/tmp/segmatch/segments_database.csv".toList [[1, 2]] = .threw) :=
  ⟨(export_result ⟨fun _ => some true, fun _ => some false, fun _ => false⟩
      "/tmp/segmatch/segments_database.csv".toList [⟨7, [⟨0, 0, 0⟩], []⟩] [[1, 2]]).1 true
      (by decide),
    (export_result ⟨fun _ => some false, fun _ => none, fun _ => false⟩
      "/tmp/segmatch/segments_database.csv".toList [⟨7, [⟨0, 0, 0⟩], []⟩] [[1, 2]]).2.2.2.2
      13 (by decide) (by decide) (by decide) (by decide) (by decide)⟩

/-! ## Loading a session -/

/-- C20, loading a session: `import_session_data_from_database` runs the
three imports in the order segments, features (into the collection that
`import_segments` left), matches, and returns success if and only if the
three return success; when `import_segments` fails nothing is changed; when
a later one fails the result is failure and the collection is as the calls
that succeeded left it, nothing is rolled back. -/
theorem import_session_all_or_nothing (default_behavior : String)
    (segments_file : Option (List SegmentLine)) (features_file : Option (List FeatureLine))
    (matches_file : Option Text) (cloud : SegmentedCloud) (matches_ : IdMatches) :
    (∀ cloud2 matches2,
      import_session_data_from_database default_behavior segments_file features_file
          matches_file cloud matches_ = .returned true cloud2 matches2 ↔
        ∃ cloud1 n1 n2, import_segments segments_file cloud = (true, cloud1, n1) ∧
          import_features features_file cloud1 default_behavior = .returned true cloud2 n2 ∧
          import_matches matches_file matches_ = (true, matches2)) ∧
    (∀ cloud1 n1, import_segments segments_file cloud = (false, cloud1, n1) →
      cloud1 = cloud ∧
      import_session_data_from_database default_behavior segments_file features_file
          matches_file cloud matches_ = .returned false cloud matches_) ∧
    (∀ cloud1 n1 cloud2 n2, import_segments segments_file cloud = (true, cloud1, n1) →
      import_features features_file cloud1 default_behavior = .returned false cloud2 n2 →
      cloud2 = cloud1 ∧
      import_session_data_from_database default_behavior segments_file features_file
          matches_file cloud matches_ = .returned false cloud1 matches_) ∧
    (∀ cloud1 n1 cloud2 n2 matches2, import_segments segments_file cloud = (true, cloud1, n1) →
      import_features features_file cloud1 default_behavior = .returned true cloud2 n2 →
      import_matches matches_file matches_ = (false, matches2) →
      matches2 = matches_ ∧
      import_session_data_from_database default_behavior segments_file features_file
          matches_file cloud matches_ = .returned false cloud2 matches_) := by
  refine ⟨?_, ?_, ?_, ?_⟩
  · intro cloud2 matches2
    rcases hs : import_segments segments_file cloud with ⟨b, cloud1, n1⟩
    cases b with
    | false => simp [import_session_data_from_database, hs]
    | true =>
      cases hf : import_features features_file cloud1 default_behavior with
      | fatal c => simp [import_session_data_from_database, hs, hf]
      | returned ok c n =>
        cases ok with
        | false => simp [import_session_data_from_database, hs, hf]
        | true =>
          rcases hm : import_matches matches_file matches_ with ⟨bm, m2⟩
          have hsess : import_session_data_from_database default_behavior segments_file
              features_file matches_file cloud matches_ = .returned bm c m2 := by
            simp [import_session_data_from_database, hs, hf, hm]
          rw [hsess]
          constructor
          · intro h
            simp only [SessionOutcome.returned.injEq] at h
            obtain ⟨hb, hc, hm2⟩ := h
            subst hb
            subst hc
            subst hm2
            exact ⟨cloud1, n1, n, rfl, hf, rfl⟩
          · rintro ⟨c1, k1, k2, h1, h2, h3⟩
            simp only [Prod.mk.injEq, true_and] at h1 h3
            obtain ⟨e1, -⟩ := h1
            subst e1
            rw [hf] at h2
            simp only [FeaturesOutcome.returned.injEq, true_and] at h2
            obtain ⟨e2, -⟩ := h2
            obtain ⟨e3, e4⟩ := h3
            subst e2
            subst e3
            subst e4
            rfl
  · intro cloud1 n1 hs
    have hc : cloud1 = cloud := by
      cases segments_file with
      | none =>
        simp only [import_segments, Prod.mk.injEq, true_and] at hs
        exact hs.1.symm
      | some lines =>
        simp only [import_segments] at hs
        split at hs <;> simp at hs
    subst hc
    exact ⟨rfl, by simp [import_session_data_from_database, hs]⟩
  · intro cloud1 n1 cloud2 n2 hs hf
    have hc : cloud2 = cloud1 := by
      cases features_file with
      | none =>
        simp only [import_features, FeaturesOutcome.returned.injEq, true_and] at hf
        exact hf.1.symm
      | some lines =>
        simp only [import_features] at hf
        obtain ⟨c, n, hr⟩ : ∃ c n, import_features_loop default_behavior lines cloud1 0
            = .returned false c n := ⟨_, _, hf⟩
        exfalso
        clear hf hs
        generalize (0 : Nat) = k at hr
        induction lines generalizing cloud1 k with
        | nil => simp [import_features_loop] at hr
        | cons l lines ih =>
          cases l with
          | none => simp [import_features_loop] at hr
          | some p =>
            obtain ⟨id, N⟩ := p
            rw [import_features_loop] at hr
            split at hr
            · exact ih _ _ hr
            · split_ifs at hr
              all_goals exact ih _ _ hr
    subst hc
    exact ⟨rfl, by simp [import_session_data_from_database, hs, hf]⟩
  · intro cloud1 n1 cloud2 n2 matches2 hs hf hm
    have hc : matches2 = matches_ := by
      unfold import_matches at hm
      split at hm
      · simp only [Prod.mk.injEq, true_and] at hm
        exact hm.symm
      · cases matches_file with
        | none =>
          simp only [Prod.mk.injEq, true_and] at hm
          exact hm.symm
        | some text => simp at hm
    subst hc
    exact ⟨rfl, by simp [import_session_data_from_database, hs, hf, hm]⟩

theorem import_session_all_or_nothing_witness :
    import_session_data_from_database "abort"
      (some [⟨7, ⟨0, 0, 0⟩⟩, ⟨7, ⟨1, 0, 0⟩⟩, ⟨9, ⟨2, 2, 2⟩⟩]) none (some "7 9 \n".toList) [] []
      = .returned false [⟨7, [⟨0, 0, 0⟩, ⟨1, 0, 0⟩], []⟩, ⟨9, [⟨2, 2, 2⟩], []⟩] [] :=
  ((import_session_all_or_nothing "abort"
    (some [⟨7, ⟨0, 0, 0⟩⟩, ⟨7, ⟨1, 0, 0⟩⟩, ⟨9, ⟨2, 2, 2⟩⟩]) none (some "7 9 \n".toList) [] []).2.2.1
    [⟨7, [⟨0, 0, 0⟩, ⟨1, 0, 0⟩], []⟩, ⟨9, [⟨2, 2, 2⟩], []⟩] 2
    [⟨7, [⟨0, 0, 0⟩, ⟨1, 0, 0⟩], []⟩, ⟨9, [⟨2, 2, 2⟩], []⟩] 0 (by decide) (by rfl)).2

end segmatch
